import Mathlib

/-!
Verification of the document-segmentation and structural-evidence core of
JobSearchBuddy (`app/core/chunker.py`, `app/core/structure_parser.py`,
`app/core/experience_extractor.py`).

Python strings are modelled as `List Char` (`Str`); Python `None`-able ints as
`Option Nat`.  Every definition below is a direct translation of the
corresponding Python function; regular expressions are translated to decidable
existence/matching predicates over `Str` (the inputs these regexes are applied
to in the code are single lines, which is reflected where `.` semantics
matters).
-/

set_option maxHeartbeats 1000000
set_option maxRecDepth 100000

namespace JSB

abbrev Str := List Char

/-- Python `str.strip()` on the left: drop leading whitespace. -/
def lstripWS (s : Str) : Str := s.dropWhile Char.isWhitespace

/-- Python `str.strip()`: drop leading and trailing whitespace. -/
def pyStrip (s : Str) : Str :=
  ((s.dropWhile Char.isWhitespace).reverse.dropWhile Char.isWhitespace).reverse

/-- Python `str.rstrip()`: drop trailing whitespace. -/
def pyRstrip (s : Str) : Str :=
  (s.reverse.dropWhile Char.isWhitespace).reverse

/-- Python `str.splitlines()` (for the `\n`, `\r`, `\r\n` line boundaries that
occur in this corpus): split at line terminators, no trailing empty line. -/
def pySplitlines : Str → List Str
  | [] => []
  | '\r' :: '\n' :: t => [] :: pySplitlines t
  | '\n' :: t => [] :: pySplitlines t
  | '\r' :: t => [] :: pySplitlines t
  | c :: t =>
    match pySplitlines t with
    | [] => [[c]]
    | l :: ls => (c :: l) :: ls

/-- Python `str.split()` with no argument: split on whitespace runs,
dropping empty pieces. -/
def pySplitWS : Str → List Str
  | [] => []
  | c :: t =>
    if c.isWhitespace then pySplitWS t
    else
      match pySplitWS t with
      | [] => [[c]]
      | l :: ls =>
        match t with
        | [] => [[c]]
        | d :: _ => if d.isWhitespace then [c] :: l :: ls else (c :: l) :: ls

/-- `"sep".join(xs)` for a one-character separator, as used via
`List.intercalate`. -/
def joinWith (sep : Str) (xs : List Str) : Str := List.intercalate sep xs

/-- `normalize` of `structure_parser.py` and `_norm` of
`experience_extractor.py` (both are the same code):
`" ".join(s.lower().split()).strip()`. -/
def normalize (s : Str) : Str :=
  pyStrip (joinWith [' '] (pySplitWS (s.map Char.toLower)))

/-- Python `str.isupper()`: at least one cased character and no lowercase
cased character. -/
def pyIsupper (s : Str) : Bool :=
  s.all (fun c => !c.isLower) && s.any (fun c => c.isUpper)

/-- Python slice `text[s:e]` for `s ≤ e`. -/
def sliceStr (t : Str) (s e : Nat) : Str := (t.drop s).take (e - s)

-- A Python regex word character (`\w`), ASCII range.
def isWordChar (c : Char) : Bool := c.isAlphanum || c = '_'

/-- Whether the character at index `i` of `s` exists and is a word
character (out-of-range counts as non-word, which is how `\b` behaves at the
ends of the string). -/
def wordAt (s : Str) (i : Nat) : Bool := isWordChar (s.getD i ' ')

/-- `\b` immediately before index `i` (the next characters being word
characters). -/
def boundaryBefore (s : Str) (i : Nat) : Bool :=
  if i = 0 then true else !wordAt s (i - 1)

/-- `\b` immediately after index `e` exclusive (the previous characters being
word characters). -/
def boundaryAfter (s : Str) (e : Nat) : Bool := !wordAt s e

/-- Four consecutive decimal digits starting at index `i` (`\d{4}`). -/
def digit4At (s : Str) (i : Nat) : Bool :=
  (List.range 4).all (fun k => (s.getD (i + k) ' ').isDigit)

/-- `\b\d{4}\b` at index `i`. -/
def num4BoundedAt (s : Str) (i : Nat) : Bool :=
  boundaryBefore s i && digit4At s i && boundaryAfter s (i + 4)

/-- The month alternation of the date regexes, in source order. -/
def monthNames : List Str :=
  [('j' :: ['a', 'n']), ('f' :: ['e', 'b']), ('m' :: ['a', 'r']),
   ('a' :: ['p', 'r']), ('m' :: ['a', 'y']), ('j' :: ['u', 'n']),
   ('j' :: ['u', 'l']), ('a' :: ['u', 'g']), ('s' :: ['e', 'p']),
   ('s' :: ['e', 'p', 't']), ('o' :: ['c', 't']), ('n' :: ['o', 'v']),
   ('d' :: ['e', 'c'])]

/-- Ends (exclusive) of month tokens matching `\b(jan|...|dec)\b` at index
`i` of the (already lowercased) string `t`. -/
def monthTokenEnds (t : Str) (i : Nat) : List Nat :=
  monthNames.filterMap (fun m =>
    if m.isPrefixOf (t.drop i) && boundaryBefore t i && boundaryAfter t (i + m.length)
    then some (i + m.length) else none)

/-- No `\n` between indices `a` (inclusive) and `b` (exclusive): the region a
`.*` must be able to cross. -/
def noNewlineBetween (t : Str) (a b : Nat) : Bool :=
  ((t.drop a).take (b - a)).all (fun c => c ≠ '\n')

/-- `\b(present|current|\d{4})\b` at index `k` of the lowercased string;
returns the end of the match if it succeeds (alternatives tried in source
order). -/
def thirdTokenEnd (t : Str) (k : Nat) : Option Nat :=
  if boundaryBefore t k &&
      ('p' :: ['r', 'e', 's', 'e', 'n', 't']).isPrefixOf (t.drop k) &&
      boundaryAfter t (k + 7) then some (k + 7)
  else if boundaryBefore t k &&
      ('c' :: ['u', 'r', 'r', 'e', 'n', 't']).isPrefixOf (t.drop k) &&
      boundaryAfter t (k + 7) then some (k + 7)
  else if num4BoundedAt t k then some (k + 4)
  else none

/-- `DATE_LINE_RE.search(s) is not None` for the `structure_parser.py` regex
`(?i)\b(months)\b.*\b(\d{4})\b.*\b(present|current|\d{4})\b|(\d{4}).*(\d{4})`.
The `(?i)` flag is modelled by lowercasing the input first. -/
def dateLineSearch (s : Str) : Bool :=
  let t := s.map Char.toLower
  let n := t.length
  let alt1 := (List.range (n + 1)).any (fun i =>
    (monthTokenEnds t i).any (fun e1 =>
      (List.range (n + 1)).any (fun j =>
        e1 ≤ j && noNewlineBetween t e1 j && num4BoundedAt t j &&
        (List.range (n + 1)).any (fun k =>
          j + 4 ≤ k && noNewlineBetween t (j + 4) k && (thirdTokenEnd t k).isSome))))
  let alt2 := (List.range (n + 1)).any (fun i =>
    digit4At t i &&
    (List.range (n + 1)).any (fun j =>
      i + 4 ≤ j && noNewlineBetween t (i + 4) j && digit4At t j))
  alt1 || alt2


/-! ## `app/core/chunker.py` -/

/-- `ExtractedChunk` of `extractor.py`, as consumed by `Chunker`: text plus
provenance; `extra and extra.get("skipped")` is modelled by the Boolean field
`skipped`. -/
structure ExtractedChunk where
  source_file : Str
  source_ext : Str
  page : Option Nat
  «section» : Option Str
  order : Option Nat
  text : Str
  skipped : Bool
deriving DecidableEq

/-- The metadata dict attached to every emitted chunk. -/
structure ChunkMeta where
  source_file : Str
  source_ext : Str
  page : Option Nat
  «section» : Option Str
  order : Option Nat
  split_index : Nat
deriving DecidableEq

/-- `RAGChunk` of `chunker.py`. -/
structure RAGChunk where
  chunk_id : Str
  text : Str
  metadata : ChunkMeta
deriving DecidableEq

/-- The three `Chunker.__init__` parameters. -/
structure ChunkerCfg where
  max_chars : Nat
  overlap_chars : Nat
  min_chunk_chars : Nat
deriving DecidableEq

/-- The `Chunker()` defaults: `max_chars=2800`, `overlap_chars=400`,
`min_chunk_chars=120`. -/
def defaultChunker : ChunkerCfg := ⟨2800, 400, 120⟩

/-- Python `s.rfind(sub)` for nonempty `sub`: the greatest index at which
`sub` occurs, if any. -/
def rfindSub (sub s : Str) : Option Nat :=
  (List.range (s.length + 1)).reverse.find? (fun p => sub.isPrefixOf (s.drop p))

/-- The separator preference list of `Chunker._find_nice_cut`:
newline, period+space, semicolon+space, space. -/
def niceSeps : List Str := [['\n'], ('.' :: [' ']), (';' :: [' ']), [' ']]

/-- The separator loop of `Chunker._find_nice_cut`. -/
def trySeps (chunkLen lookback : Nat) (tail : Str) : List Str → Option Nat
  | [] => none
  | sep :: rest =>
    match rfindSub sep tail with
    | some p => some (chunkLen - lookback + p + sep.length)
    | none => trySeps chunkLen lookback tail rest

/-- `Chunker._find_nice_cut`. -/
def find_nice_cut (chunk : Str) : Option Nat :=
  let lookback := min 350 chunk.length
  let tail := chunk.drop (chunk.length - lookback)
  trySeps chunk.length lookback tail niceSeps

/-- The per-iteration body of `Chunker._split_with_overlap`: from window
start `start`, the final cut position `end` for the emitted piece
(`min(start+max_chars, n)`, possibly moved back to a nice cut). -/
def splitStep (cfg : ChunkerCfg) (t : Str) (start : Nat) : Nat :=
  let n := t.length
  let e := min (start + cfg.max_chars) n
  if e < n then
    match find_nice_cut (sliceStr t start e) with
    | some cut => if cfg.min_chunk_chars < cut then start + cut else e
    | none => e
  else e

/-- The `while start < n` loop of `Chunker._split_with_overlap`, with fuel;
the next window start is `max(0, end - overlap_chars)`, which over `Nat`
is the truncated subtraction `end - overlap_chars`. `none` means the fuel ran
out (the Python loop would still be running). -/
def splitLoop (cfg : ChunkerCfg) (t : Str) : Nat → Nat → Option (List Str)
  | _, 0 => none
  | start, fuel + 1 =>
    let e := splitStep cfg t start
    let piece := sliceStr t start e
    if t.length ≤ e then some [piece]
    else
      match splitLoop cfg t (e - cfg.overlap_chars) fuel with
      | some rest => some (piece :: rest)
      | none => none

/-- `Chunker._split_with_overlap` (fuel `t.length` is enough for every
terminating configuration; see `splitLoop_spec`). -/
def split_with_overlap (cfg : ChunkerCfg) (t : Str) : Option (List Str) :=
  if t.length ≤ cfg.max_chars then some [t]
  else splitLoop cfg t 0 t.length

/-- `Chunker._make_chunk_id`: `f"{source_file}|p{page}|o{order}|s{split_index}"`
with a `None` page or order rendered as `0`. -/
def make_chunk_id (ex : ExtractedChunk) (split_index : Nat) : Str :=
  ex.source_file ++ ('|' :: ['p']) ++ (Nat.repr (ex.page.getD 0)).toList
    ++ ('|' :: ['o']) ++ (Nat.repr (ex.order.getD 0)).toList
    ++ ('|' :: ['s']) ++ (Nat.repr split_index).toList

/-- The per-piece emission step inside `Chunker.chunk`: strip the piece, drop
it if shorter than `min_chunk_chars`, otherwise build the `RAGChunk` with its
id and metadata. -/
def emitPieces (cfg : ChunkerCfg) (ex : ExtractedChunk) (splits : List Str) :
    List RAGChunk :=
  (splits.enum).filterMap (fun ji =>
    let piece := pyStrip ji.2
    if piece.length < cfg.min_chunk_chars then none
    else some ⟨make_chunk_id ex ji.1, piece,
      ⟨ex.source_file, ex.source_ext, ex.page, ex.«section», ex.order, ji.1⟩⟩)

/-- The per-record body of `Chunker.chunk`. -/
def chunkOne (cfg : ChunkerCfg) (ex : ExtractedChunk) : Option (List RAGChunk) :=
  if ex.skipped then some []
  else
    let base := pyStrip ex.text
    if base = [] then some []
    else
      match split_with_overlap cfg base with
      | some splits => some (emitPieces cfg ex splits)
      | none => none

/-- `Chunker.chunk` over a list of extracted records. -/
def chunk (cfg : ChunkerCfg) : List ExtractedChunk → Option (List RAGChunk)
  | [] => some []
  | ex :: rest =>
    match chunkOne cfg ex, chunk cfg rest with
    | some a, some b => some (a ++ b)
    | _, _ => none

/-! ## `app/core/structure_parser.py` -/

def WORK_HEADERS : List Str := [('w' :: "ork experience".toList)]

def EDU_HEADERS : List Str := [('a' :: "cademic education".toList)]

def OTHER_HEADERS : List Str :=
  [('p' :: "rofessional summary".toList),
   ('s' :: "kills".toList),
   ('a' :: "cademic projects".toList),
   ('p' :: "rojects".toList),
   ('a' :: "chievements".toList),
   ('c' :: "ertifications".toList)]

/-- `RoleBlock` of `structure_parser.py`. -/
structure RoleBlock where
  company_line : Str
  dates_line : Str
  title_line : Str
  bullets : List Str
  source_files : List Str
deriving DecidableEq

/-- `EducationBlock` of `structure_parser.py`. -/
structure EducationBlock where
  institution_line : Str
  degree_line : Str
  source_files : List Str
deriving DecidableEq

/-- The inner `find_header_idx` of `extract_template_parts`: index of the
first line whose normalization is in the header set, `none` for the `-1`
sentinel. -/
def find_header_idx (lines : List Str) (hs : List Str) : Option Nat :=
  lines.findIdx? (fun ln => decide (normalize ln ∈ hs))

/-- The education-section-end scan of `extract_template_parts`: the first
index `j > edu_idx` whose normalization is one of the other known section
headers, else `len(lines)`. -/
def eduSectionEnd (lines : List Str) (edu_idx : Nat) : Nat :=
  match (List.range lines.length).find?
      (fun j => edu_idx < j && decide (normalize (lines.getD j []) ∈ OTHER_HEADERS)) with
  | some j => j
  | none => lines.length

/-- The line list `extract_template_parts` works on. -/
def templateLines (full_text : Str) : List Str :=
  (pySplitlines full_text).map pyRstrip

/-- `extract_template_parts`; `none` models the `RuntimeError` raised when
the headers are missing or out of order. -/
def extract_template_parts (full_text : Str) :
    Option (List Str × List Str × List Str) :=
  let lines := templateLines full_text
  match find_header_idx lines WORK_HEADERS, find_header_idx lines EDU_HEADERS with
  | some work_idx, some edu_idx =>
    if edu_idx ≤ work_idx then none
    else
      some (lines.take (work_idx + 1), [lines.getD edu_idx []],
        lines.drop (eduSectionEnd lines edu_idx))
  | _, _ => none

/-- `BULLET_RE.match(l)` (`^\s*(?:•|-|–)\s*(.+)$`): `some` of group 1 when
the line matches.  When everything after the marker is whitespace the
backtracking regex still matches with the final whitespace character as group
1; callers always strip group 1, or use the match only as a test. -/
def bulletMatch (l : Str) : Option Str :=
  match l.dropWhile Char.isWhitespace with
  | [] => none
  | c :: rest =>
    if c = '•' ∨ c = '-' ∨ c = '–' then
      if rest = [] then none
      else
        match rest.dropWhile Char.isWhitespace with
        | [] => some [rest.getLast!]
        | g => some g
    else none

/-- The nonempty stripped line list both scanners of `structure_parser.py`
start from. -/
def cleanLines (text : Str) : List Str :=
  ((pySplitlines text).map pyStrip).filter (fun ln => ln ≠ [])

/-- The `next role heuristic` test in the bullet loop of
`parse_work_experience`: at current (stripped) line `ln` with remaining lines
`rest` after it, `i + 2 < len(lines) and DATE_LINE_RE.search(lines[i+1]) and
(("|" in ln) or ln.isupper())`. -/
def nextRoleBreak (ln : Str) (rest : List Str) : Bool :=
  match rest with
  | l1 :: _ :: _ => dateLineSearch l1 && (ln.contains '|' || pyIsupper ln)
  | _ => false

/-- `bullets[-1] = (bullets[-1] + " " + ln).strip()` (no-op on an empty
bullet list, mirroring the `if bullets:` guard). -/
def appendToLast : List Str → Str → List Str
  | [], _ => []
  | [b], ln => [pyStrip (b ++ ' ' :: ln)]
  | b :: bs, ln => b :: appendToLast bs ln

/-- The inner bullet-accumulation loop of `parse_work_experience`; returns
the accumulated bullets and the remaining lines at the loop exit. -/
def bulletScan (bullets : List Str) (pending : Bool) :
    List Str → List Str × List Str
  | [] => (bullets, [])
  | ln :: rest =>
    let lnS := pyStrip ln
    if nextRoleBreak lnS rest then (bullets, ln :: rest)
    else if lnS = ['•'] ∨ lnS = ['-'] ∨ lnS = ['–'] then bulletScan bullets true rest
    else
      match bulletMatch lnS with
      | some g => bulletScan (bullets ++ [pyStrip g]) false rest
      | none =>
        if pending then bulletScan (bullets ++ [lnS]) false rest
        else bulletScan (appendToLast bullets lnS) false rest

/-- The outer loop of `parse_work_experience`, with fuel (the loop index
strictly increases, so `lines.length` fuel is enough; see
`parse_work_experience`). -/
def parseWorkAux (source_file : Str) : Nat → List Str → List RoleBlock
  | 0, _ => []
  | _ + 1, [] => []
  | fuel + 1, company :: rest =>
    match rest with
    | l1 :: l2 :: rest2 =>
      if dateLineSearch l1 then
        let r := bulletScan [] false rest2
        (if r.1 ≠ [] then [⟨company, l1, l2, r.1, [source_file]⟩] else [])
          ++ parseWorkAux source_file fuel r.2
      else parseWorkAux source_file fuel (l1 :: l2 :: rest2)
    | short => parseWorkAux source_file fuel short

/-- `parse_work_experience`. -/
def parse_work_experience (work_text : Str) (source_file : Str) : List RoleBlock :=
  parseWorkAux source_file (cleanLines work_text).length (cleanLines work_text)

/-- Lexicographic `<` on strings by code point, Python's string ordering. -/
def strLt : Str → Str → Bool
  | [], [] => false
  | [], _ :: _ => true
  | _ :: _, [] => false
  | a :: as_, b :: bs => if a < b then true else if b < a then false else strLt as_ bs

/-- Insertion step for `sortStrs`. -/
def insertStr (x : Str) : List Str → List Str
  | [] => [x]
  | y :: ys => if strLt y x then y :: insertStr x ys else x :: y :: ys

/-- Python `sorted` on a list of strings (the inputs it is applied to are
duplicate-free, so any correct sort gives Python's answer). -/
def sortStrs : List Str → List Str
  | [] => []
  | x :: xs => insertStr x (sortStrs xs)

/-- `sorted(list(set(a + b)))` for the source-file provenance union. -/
def sortedUnion (a b : List Str) : List Str := sortStrs ((a ++ b).dedup)

/-- The bullet-union loop shared by `merge_roles` and
`dedupe_and_merge_blocks`: `seen` starts as the set of normalized existing
bullets, and each incoming bullet is appended when its normalization is
unseen. -/
def addBullets (bs : List Str) (seen : List Str) : List Str → List Str
  | [] => bs
  | b :: t =>
    if normalize b ∈ seen then addBullets bs seen t
    else addBullets (bs ++ [b]) (normalize b :: seen) t

/-- `key in merged` for the insertion-ordered map modelled as an association
list. -/
def hasKey (k : Str) : List (Str × α) → Bool
  | [] => false
  | p :: t => if p.1 = k then true else hasKey k t

/-- In-place update of the (unique) entry with key `k`. -/
def updateEntry (k : Str) (f : α → α) : List (Str × α) → List (Str × α)
  | [] => []
  | p :: t => if p.1 = k then (p.1, f p.2) :: t else p :: updateEntry k f t

/-- The shared shape of `merge_roles` / `dedupe_and_merge_blocks`: a fold
over the input blocks into an insertion-ordered key → block map, updating an
existing representative with `upd` on key collision. -/
def mergeByKeyAux (key : α → Str) (upd : α → α → α)
    (acc : List (Str × α)) : List α → List (Str × α)
  | [] => acc
  | r :: rs =>
    if hasKey (key r) acc then
      mergeByKeyAux key upd (updateEntry (key r) (upd r) acc) rs
    else mergeByKeyAux key upd (acc ++ [(key r, r)]) rs

def mergeByKey (key : α → Str) (upd : α → α → α) (l : List α) : List α :=
  (mergeByKeyAux key upd [] l).map (fun p => p.2)

/-- The merge key of `merge_roles`:
`normalize(company) + "|" + normalize(dates) + "|" + normalize(title)`. -/
def roleKey (r : RoleBlock) : Str :=
  normalize r.company_line ++ '|' :: normalize r.dates_line
    ++ '|' :: normalize r.title_line

/-- The collision branch of `merge_roles`: union+sort source files, append
unseen bullets; the three header fields are left untouched. -/
def mergeRoleInto (r ex : RoleBlock) : RoleBlock :=
  { ex with
    source_files := sortedUnion ex.source_files r.source_files,
    bullets := addBullets ex.bullets (ex.bullets.map normalize) r.bullets }

/-- `merge_roles`. -/
def merge_roles : List RoleBlock → List RoleBlock :=
  mergeByKey roleKey mergeRoleInto

/-- `build_experience_evidence`: per role the three header lines, `• `-prefixed
bullets, and a blank separator, joined by newlines and stripped. -/
def roleParts (r : RoleBlock) : List Str :=
  r.company_line :: r.dates_line :: r.title_line ::
    (r.bullets.map (fun b => '•' :: ' ' :: b)) ++ [[]]

def build_experience_evidence (roles : List RoleBlock) : Str :=
  pyStrip (joinWith ['\n'] (List.flatten (roles.map roleParts)))

/-! ## `app/core/experience_extractor.py` -/

/-- `ExperienceBlock` of `experience_extractor.py`. -/
structure ExperienceBlock where
  role_key : Str
  title_company : Str
  dates : Str
  source_files : List Str
  bullets : List Str
  raw_lines : List Str
deriving DecidableEq

def ROLE_HEADER_HINTS : List Str :=
  [('e' :: "xperience".toList), ('w' :: "ork experience".toList),
   ('p' :: "rofessional experience".toList), ('e' :: "mployment".toList)]

/-- The `(months)\.?\s*\d{4}` continuation of the first `DATE_RE`
alternative, from the end `e` of the month token; returns the end after the
four digits. -/
def monthDigitsEnd (t : Str) (e : Nat) : Option Nat :=
  let e1 := if t.getD e ' ' = '.' then e + 1 else e
  let e2 := e1 + ((t.drop e1).takeWhile Char.isWhitespace).length
  if digit4At t e2 then some (e2 + 4) else none

/-- End of the first group `\b((months)\.?\s*\d{4}|\d{4})\b` of `DATE_RE` when
it matches at index `i` of the lowercased string (alternatives in source
order; at any index at most one month alternative can complete, so taking the
first completed one is the backtracking regex's choice). -/
def dateReG1At (t : Str) (i : Nat) : Option Nat :=
  if boundaryBefore t i then
    match monthNames.filterMap (fun m =>
        if m.isPrefixOf (t.drop i) then monthDigitsEnd t (i + m.length) else none) with
    | e :: _ => if boundaryAfter t e then some e else none
    | [] => if digit4At t i && boundaryAfter t (i + 4) then some (i + 4) else none
  else none

/-- Whether a full `DATE_RE` match starting at `i` exists: the first group at
`i` followed (across a newline-free gap, `.*`) by
`\b(present|current|\d{4})\b`. -/
def dateReMatchesAt (t : Str) (i : Nat) : Bool :=
  match dateReG1At t i with
  | some e =>
    (List.range (t.length + 1)).any (fun k =>
      e ≤ k && noNewlineBetween t e k && (thirdTokenEnd t k).isSome)
  | none => false

/-- `DATE_RE.search(s)` and its `group(0)`: the regex engine commits to the
leftmost start; the greedy `.*` makes the match end at the rightmost viable
trailing token.  `none` when there is no match. -/
def dateReGroup0 (s : Str) : Option Str :=
  let t := s.map Char.toLower
  let n := t.length
  match (List.range (n + 1)).find? (fun i => dateReMatchesAt t i) with
  | none => none
  | some i =>
    match dateReG1At t i with
    | some e =>
      match (List.range (n + 1)).reverse.find? (fun k =>
          e ≤ k && noNewlineBetween t e k && (thirdTokenEnd t k).isSome) with
      | some k => (thirdTokenEnd t k).map (fun e3 => sliceStr s i e3)
      | none => none
    | none => none

/-- Python `sub in s` (substring containment). -/
def isSubstr (sub s : Str) : Bool :=
  (List.range (s.length + 1)).any (fun i => sub.isPrefixOf (s.drop i))

/-- `_looks_like_role_header`. -/
def looks_like_role_header (line : Str) : Bool :=
  let l := pyStrip line
  if l.length < 8 then false
  else if isSubstr (' ' :: '—' :: [' ']) l || isSubstr (' ' :: '-' :: [' ']) l then
    true
  else if (dateReGroup0 l).isSome then true
  else false

/-- `_is_section_header`. -/
def is_section_header (line : Str) : Bool :=
  let l := normalize line
  ROLE_HEADER_HINTS.any (fun h => isSubstr h l) ||
    decide (l ∈ [('e' :: "xperience".toList), ('w' :: "ork experience".toList),
      ('p' :: "rofessional experience".toList)])

/-- `nxt.startswith(("- ", "•"))`. -/
def bulletStart (nxt : Str) : Bool :=
  ('-' :: [' ']).isPrefixOf nxt || ['•'].isPrefixOf nxt

/-- `nxt.lstrip("•").lstrip("-").strip()`. -/
def cleanBullet (nxt : Str) : Str :=
  pyStrip ((nxt.dropWhile (fun c => c = '•')).dropWhile (fun c => c = '-'))

/-- The inner collection loop of `build_experience_blocks`: from the lines
after a role-header candidate, the collected bullets, the consumed raw lines,
and the remaining lines at the loop exit. -/
def collectLines : List Str → List Str × List Str × List Str
  | [] => ([], [], [])
  | nxt :: rest =>
    if is_section_header nxt then ([], [], nxt :: rest)
    else if looks_like_role_header nxt then ([], [], nxt :: rest)
    else
      let r := collectLines rest
      if bulletStart nxt then (cleanBullet nxt :: r.1, nxt :: r.2.1, r.2.2)
      else (r.1, nxt :: r.2.1, r.2.2)

/-- The scan loop of `build_experience_blocks` over one file's line list,
with fuel (the loop index strictly increases). -/
def buildScan (source_file : Str) : Nat → List Str → List ExperienceBlock
  | 0, _ => []
  | _ + 1, [] => []
  | fuel + 1, ln :: rest =>
    if is_section_header ln then buildScan source_file fuel rest
    else if looks_like_role_header ln then
      let dates := (dateReGroup0 ln).getD []
      let r := collectLines rest
      (if r.1 ≠ [] then
        [⟨normalize ln, ln, dates, [source_file], r.1, ln :: r.2.1⟩]
       else [])
        ++ buildScan source_file fuel r.2.2
    else buildScan source_file fuel rest

/-- `defaultdict(list)` grouping by `metadata["source_file"]`, keys in first
insertion order. -/
def groupByFile : List RAGChunk → List (Str × List RAGChunk)
  | [] => []
  | c :: rest =>
    let g := groupByFile rest
    if g.any (fun p => p.1 = c.metadata.source_file) then
      g.map (fun p =>
        if p.1 = c.metadata.source_file then (p.1, c :: p.2) else p)
    else (c.metadata.source_file, [c]) :: g

/-- The stable-sort key `(page or 0, order or 0, split_index or 0)`. -/
def chunkSortKey (c : RAGChunk) : Nat × Nat × Nat :=
  (c.metadata.page.getD 0, c.metadata.order.getD 0, c.metadata.split_index)

/-- Python tuple `<=` on the sort keys. -/
def tripleLe (a b : Nat × Nat × Nat) : Bool :=
  a.1 < b.1 || (a.1 = b.1 &&
    (a.2.1 < b.2.1 || (a.2.1 = b.2.1 && a.2.2 ≤ b.2.2)))

/-- Stable insertion used to model Python's stable `list.sort(key=...)`. -/
def insertChunk (c : RAGChunk) : List RAGChunk → List RAGChunk
  | [] => [c]
  | d :: t =>
    if tripleLe (chunkSortKey c) (chunkSortKey d) then c :: d :: t
    else d :: insertChunk c t

/-- `chunks.sort(key=sort_key)` (stable). -/
def sortChunks : List RAGChunk → List RAGChunk
  | [] => []
  | c :: t => insertChunk c (sortChunks t)

/-- The nonempty stripped lines of one file's sorted chunks. -/
def fileLines (chunks : List RAGChunk) : List Str :=
  List.flatten ((sortChunks chunks).map (fun c =>
    ((pySplitlines c.text).map pyStrip).filter (fun ln => ln ≠ [])))

/-- `build_experience_blocks`. -/
def build_experience_blocks (rag_chunks : List RAGChunk) : List ExperienceBlock :=
  List.flatten ((groupByFile rag_chunks).map (fun p =>
    buildScan p.1 (fileLines p.2).length (fileLines p.2)))

/-- The collision branch of `dedupe_and_merge_blocks`: union sources and
bullets, and keep the longer `title_company` / `dates` (strictly longer
replaces; the existing one wins ties). -/
def mergeBlockInto (b ex : ExperienceBlock) : ExperienceBlock :=
  { ex with
    source_files := sortedUnion ex.source_files b.source_files,
    bullets := addBullets ex.bullets (ex.bullets.map normalize) b.bullets,
    title_company :=
      if ex.title_company.length < b.title_company.length then b.title_company
      else ex.title_company,
    dates := if ex.dates.length < b.dates.length then b.dates else ex.dates }

/-- `dedupe_and_merge_blocks` (the merge key is the stored `role_key`). -/
def dedupe_and_merge_blocks : List ExperienceBlock → List ExperienceBlock :=
  mergeByKey (fun b => b.role_key) mergeBlockInto

/-! ## Verification-side predicates and concrete inputs -/

/-- Claim C8's coverage property: every index of the text lies in one of the
spans. -/
def spansCoverNoGaps (t : Str) (spans : List (Nat × Nat)) : Prop :=
  ∀ j, j < t.length → ∃ p ∈ spans, p.1 ≤ j ∧ j < p.2

/-- Claim C8's overlap bound: each span starts no later than the previous
span's end, and reuses at most `ov` of its characters. -/
def consecOverlapAtMost (ov : Nat) (spans : List (Nat × Nat)) : Prop :=
  List.Chain' (fun p q => q.1 ≤ p.2 ∧ p.2 ≤ q.1 + ov) spans

/-- Claim C8, stated of a list of chunk texts: they are the slices of a span
list that covers the text with no gaps and bounded consecutive overlap. -/
def chunksCorrespond (t : Str) (chunks : List Str) (ov : Nat) : Prop :=
  ∃ spans : List (Nat × Nat),
    chunks = spans.map (fun p => sliceStr t p.1 p.2) ∧
    spansCoverNoGaps t spans ∧ consecOverlapAtMost ov spans

/-- `i` is the index of the first line whose normalization is in the header
set `hs`. -/
def isFirstHeaderAt (lines : List Str) (hs : List Str) (i : Nat) : Prop :=
  i < lines.length ∧ normalize (lines.getD i []) ∈ hs ∧
    ∀ j, j < i → normalize (lines.getD j []) ∉ hs

/-- `e` is the end of the education section started at `edu_idx`: the first
later index whose normalized line is another known section header, or the
line count when there is none. -/
def isEduEndAt (lines : List Str) (edu_idx e : Nat) : Prop :=
  (e = lines.length ∧ ∀ j, edu_idx < j → j < lines.length →
      normalize (lines.getD j []) ∉ OTHER_HEADERS) ∨
  (edu_idx < e ∧ e < lines.length ∧ normalize (lines.getD e []) ∈ OTHER_HEADERS ∧
      ∀ j, edu_idx < j → j < e → normalize (lines.getD j []) ∉ OTHER_HEADERS)

/-- A field the strict extractor would hand back unchanged: stripped,
nonempty, free of line terminators. -/
def lineSafe (x : Str) : Prop := pyStrip x = x ∧ x ≠ [] ∧ '\n' ∉ x ∧ '\r' ∉ x

instance (x : Str) : Decidable (lineSafe x) := by unfold lineSafe; infer_instance

/-- Extractor-canonical form of a merged role list, under which rendering and
re-parsing round-trips (claim C7 amended): all fields and bullets line-safe,
at least one bullet, the dates line matches `DATE_LINE_RE`, neither the
company line nor any rendered bullet line matches it, and the company line
contains `|` or is upper-case (the re-parser's next-role test). -/
def roundTripReady (roles : List RoleBlock) : Prop :=
  ∀ r ∈ roles,
    lineSafe r.company_line ∧ lineSafe r.dates_line ∧ lineSafe r.title_line ∧
    (∀ b ∈ r.bullets, lineSafe b) ∧ r.bullets ≠ [] ∧
    dateLineSearch r.dates_line = true ∧
    dateLineSearch r.company_line = false ∧
    (∀ b ∈ r.bullets, dateLineSearch ('•' :: ' ' :: b) = false) ∧
    (r.company_line.contains '|' || pyIsupper r.company_line) = true

instance (roles : List RoleBlock) : Decidable (roundTripReady roles) := by
  unfold roundTripReady
  infer_instance

/-- The observable content of a role block for round-trip comparison (the
source-file provenance is rebuilt from the evidence file name). -/
def roleContent (r : RoleBlock) : Str × Str × Str × List Str :=
  (r.company_line, r.dates_line, r.title_line, r.bullets)

/-- A record whose trimmed text is nonempty but shorter than the default
minimum chunk length. -/
def exHello : ExtractedChunk :=
  ⟨("a.pdf").toList, (".pdf").toList, none, none, none, ("hello").toList, false⟩

/-- A record whose trimmed text is a 200-character line. -/
def exLong : ExtractedChunk :=
  ⟨("a.pdf").toList, (".pdf").toList, none, none, none,
    List.replicate 200 'a', false⟩

/-- Identifier-collision pair: `page=None` versus `page=0`, all else equal. -/
def exPageNone : ExtractedChunk :=
  ⟨("a.pdf").toList, (".pdf").toList, none, none, some 1, ("text").toList, false⟩

def exPageZero : ExtractedChunk :=
  ⟨("a.pdf").toList, (".pdf").toList, some 0, none, some 1, ("text").toList, false⟩

/-- A small configuration under which the splitter terminates but the strip
and minimum-length filters discard every piece. -/
def cfg8 : ChunkerCfg := ⟨10, 3, 5⟩

/-- `"x" + 20 spaces + "y"`: length 22, longer than `cfg8.max_chars`. -/
def ex8 : ExtractedChunk :=
  ⟨("a.pdf").toList, (".pdf").toList, none, none, none,
    'x' :: (List.replicate 20 ' ' ++ ['y']), false⟩

/-- A 2801-character text, one character over the default maximum. -/
def t2801 : Str := List.replicate 2801 'a'

/-- Work-experience text whose third line is neither short nor upper-case. -/
def t5 : Str :=
  ("Acme Corp\nJan 2020 - Dec 2021\ndeveloped the system in python\n• did x").toList

/-- Two role blocks with equal merge keys but different raw company spellings
(and different lengths). -/
def rAcme1 : RoleBlock :=
  ⟨("Acme Corp").toList, ("Jan 2020 - Dec 2020").toList, ("Engineer").toList,
    [("built x").toList], [("f1.pdf").toList]⟩

def rAcme2 : RoleBlock :=
  ⟨("ACME  CORP").toList, ("JAN 2020 - DEC 2020").toList, ("ENGINEER").toList,
    [("shipped y").toList], [("f2.pdf").toList]⟩

/-- Generic-pipeline blocks with equal stored keys and different header
lengths. -/
def bAcme1 : ExperienceBlock :=
  ⟨("acme corp — engineer").toList, ("Acme Corp — Engineer").toList,
    ("2020 - 2021").toList, [("f1.pdf").toList], [("built x").toList], []⟩

def bAcme2 : ExperienceBlock :=
  ⟨("acme corp — engineer").toList, ("Acme  Corp  —  Engineer").toList,
    ("2020  -  2021").toList, [("f2.pdf").toList], [("shipped y").toList], []⟩

/-- Round-trip counterexample blocks: the second company line is neither
upper-case nor contains a pipe. -/
def rGoodA : RoleBlock :=
  ⟨("ACME").toList, ("Jan 2020 - Dec 2020").toList, ("ENGINEER").toList,
    [("built x").toList], [("f1.pdf").toList]⟩

def rBadB : RoleBlock :=
  ⟨("Beta llc").toList, ("Jan 2021 - Dec 2021").toList, ("DEV").toList,
    [("did y").toList], [("f2.pdf").toList]⟩

def rGoodB : RoleBlock :=
  ⟨("BETA LLC").toList, ("Jan 2021 - Dec 2021").toList, ("DEV").toList,
    [("did y").toList], [("f2.pdf").toList]⟩

/-- A template document with both headers in order and a later known
section header ending the education section. -/
def t6 : Str :=
  ("NAME\nWORK EXPERIENCE\nacme\nACADEMIC EDUCATION\nMIT\nSKILLS\npython").toList

/-- A chunk whose text the generic extractor turns into one block. -/
def ragC9 : RAGChunk :=
  ⟨("id").toList, ("Acme Corp — Engineer Jan 2020 - Present\n- did a thing").toList,
    ⟨("a.pdf").toList, (".pdf").toList, none, none, none, 0⟩⟩

/-- The block the strict extractor finds in `t5`. -/
def rb5 : RoleBlock :=
  ⟨("Acme Corp").toList, ("Jan 2020 - Dec 2021").toList,
    ("developed the system in python").toList, [("did x").toList], [['f']]⟩

/-- The block the generic extractor finds in `ragC9`. -/
def bb9 : ExperienceBlock :=
  ⟨normalize ("Acme Corp — Engineer Jan 2020 - Present").toList,
    ("Acme Corp — Engineer Jan 2020 - Present").toList,
    ("Jan 2020 - Present").toList, [("a.pdf").toList],
    [("did a thing").toList],
    [("Acme Corp — Engineer Jan 2020 - Present").toList,
     ("- did a thing").toList]⟩

/-- The lines one role contributes to the evidence text, without the blank
separator. -/
def blockLines (r : RoleBlock) : List Str :=
  r.company_line :: r.dates_line :: r.title_line ::
    r.bullets.map (fun b => '•' :: ' ' :: b)

/-- Strip the provenance down to the evidence file, as re-parsing does. -/
def reSource (sf : Str) (r : RoleBlock) : RoleBlock :=
  { r with source_files := [sf] }

/-! ## Text-primitive lemmas -/

theorem pyStrip_eq_rdrop_drop (s : Str) :
    pyStrip s =
      List.rdropWhile Char.isWhitespace (List.dropWhile Char.isWhitespace s) := rfl

theorem dropWhile_pyStrip (s : Str) :
    List.dropWhile Char.isWhitespace (pyStrip s) = pyStrip s := by
  rcases hps : pyStrip s with _ | ⟨a, l⟩
  · rfl
  · obtain ⟨u, hu⟩ :=
      List.rdropWhile_prefix Char.isWhitespace (List.dropWhile Char.isWhitespace s)
    rw [← pyStrip_eq_rdrop_drop, hps] at hu
    have hne : List.dropWhile Char.isWhitespace s ≠ [] := by
      rw [← hu]; simp
    have ha := List.head_dropWhile_not Char.isWhitespace s hne
    have ha2 : (List.dropWhile Char.isWhitespace s).head? = some a := by
      rw [← hu]; simp
    rw [List.head?_eq_head hne] at ha2
    rw [Option.some_inj.mp ha2] at ha
    simp [List.dropWhile_cons, ha]

theorem pyStrip_idem (s : Str) : pyStrip (pyStrip s) = pyStrip s := by
  rw [pyStrip_eq_rdrop_drop (pyStrip s), dropWhile_pyStrip,
    pyStrip_eq_rdrop_drop s]
  exact List.rdropWhile_idempotent _ _

/-! ## Chunker lemmas -/

theorem sliceStr_length (t : Str) (s e : Nat) :
    (sliceStr t s e).length = min (e - s) (t.length - s) := by
  simp [sliceStr]

theorem rfindSub_spec (sub s : Str) (p : Nat) (h : rfindSub sub s = some p) :
    p + sub.length ≤ s.length := by
  have hpred := List.find?_some h
  have hmem := List.mem_of_find?_eq_some h
  have hp : p ≤ s.length := by
    have := List.mem_reverse.mp hmem
    have := List.mem_range.mp this
    omega
  have hpre : sub <+: s.drop p := by
    exact List.isPrefixOf_iff_prefix.mp hpred
  have hlen := hpre.length_le
  rw [List.length_drop] at hlen
  omega

theorem trySeps_spec (chLen lookback : Nat) (tail : Str) (seps : List Str)
    (cut : Nat) (htail : tail.length = lookback)
    (hseps : ∀ sp ∈ seps, sp ≠ []) (h : trySeps chLen lookback tail seps = some cut) :
    chLen - lookback + 1 ≤ cut ∧ cut ≤ chLen - lookback + lookback := by
  induction seps with
  | nil => simp [trySeps] at h
  | cons sp rest ih =>
    rw [trySeps] at h
    rcases hf : rfindSub sp tail with _ | p
    · rw [hf] at h
      exact ih (fun x hx => hseps x (List.mem_cons_of_mem _ hx)) h
    · rw [hf] at h
      have hb := rfindSub_spec sp tail p hf
      have hsp : sp ≠ [] := hseps sp (List.mem_cons_self _ _)
      have hsp1 : 1 ≤ sp.length := by
        cases sp with
        | nil => exact absurd rfl hsp
        | cons a l => simp
      have hc : cut = chLen - lookback + p + sp.length := by
        injection h with h'
        omega
      omega

theorem find_nice_cut_bounds (ch : Str) (cut : Nat)
    (h : find_nice_cut ch = some cut) :
    ch.length ≤ cut + 349 ∧ 1 ≤ cut ∧ cut ≤ ch.length := by
  have hlb : min 350 ch.length ≤ ch.length := Nat.min_le_right _ _
  have htail : (ch.drop (ch.length - min 350 ch.length)).length = min 350 ch.length := by
    rw [List.length_drop]
    omega
  have hseps : ∀ sp ∈ niceSeps, sp ≠ [] := by decide
  have := trySeps_spec ch.length (min 350 ch.length)
    (ch.drop (ch.length - min 350 ch.length)) niceSeps cut htail hseps h
  have h350 : min 350 ch.length ≤ 350 := Nat.min_le_left _ _
  omega

theorem splitStep_le (cfg : ChunkerCfg) (t : Str) (start : Nat) :
    splitStep cfg t start ≤ t.length := by
  rw [splitStep]
  set e0 := min (start + cfg.max_chars) t.length with he0
  have he0n : e0 ≤ t.length := Nat.min_le_right _ _
  by_cases hlt : e0 < t.length
  · simp only [hlt, if_pos]
    rcases hc : find_nice_cut (sliceStr t start e0) with _ | cut
    · exact he0n
    · by_cases hm : cfg.min_chunk_chars < cut
      · simp only [hm, if_pos]
        have hb := find_nice_cut_bounds _ _ hc
        rw [sliceStr_length] at hb
        omega
      · simp only [hm, if_neg, if_false]
        exact he0n
  · simp only [hlt, if_neg, if_false]
    exact he0n

theorem splitStep_gt (cfg : ChunkerCfg) (t : Str) (start : Nat)
    (hmax : 0 < cfg.max_chars) (hs : start < t.length) :
    start < splitStep cfg t start := by
  rw [splitStep]
  set e0 := min (start + cfg.max_chars) t.length with he0
  have he0s : start < e0 := by
    apply lt_min <;> omega
  by_cases hlt : e0 < t.length
  · simp only [hlt, if_pos]
    rcases hc : find_nice_cut (sliceStr t start e0) with _ | cut
    · exact he0s
    · by_cases hm : cfg.min_chunk_chars < cut
      · simp only [hm, if_pos]
        have hb := find_nice_cut_bounds _ _ hc
        omega
      · simp only [hm, if_neg, if_false]
        exact he0s
  · simp only [hlt, if_neg, if_false]
    exact he0s

theorem splitStep_advance (cfg : ChunkerCfg) (t : Str) (start : Nat)
    (h2 : splitStep cfg t start < t.length) :
    start + (cfg.max_chars - 349) ≤ splitStep cfg t start := by
  rw [splitStep] at h2 ⊢
  set e0 := min (start + cfg.max_chars) t.length with he0
  by_cases hlt : e0 < t.length
  · have he0v : e0 = start + cfg.max_chars := by omega
    simp only [hlt, if_pos] at h2 ⊢
    rcases hc : find_nice_cut (sliceStr t start e0) with _ | cut
    · show start + (cfg.max_chars - 349) ≤ e0
      omega
    · show start + (cfg.max_chars - 349) ≤
        if cfg.min_chunk_chars < cut then start + cut else e0
      by_cases hm : cfg.min_chunk_chars < cut
      · simp only [hm, if_pos]
        have hb := find_nice_cut_bounds _ _ hc
        rw [sliceStr_length] at hb
        omega
      · simp only [hm, if_neg, if_false]
        omega
  · simp only [hlt, if_neg, if_false] at h2 ⊢

theorem splitLoop_spec (cfg : ChunkerCfg) (t : Str)
    (h1 : cfg.overlap_chars + 349 < cfg.max_chars) :
    ∀ fuel start, start < t.length → t.length - start ≤ fuel →
    ∃ spans : List (Nat × Nat),
      splitLoop cfg t start fuel = some (spans.map (fun p => sliceStr t p.1 p.2)) ∧
      spans ≠ [] ∧
      (∀ p ∈ spans, p.1 < p.2 ∧ p.2 ≤ t.length) ∧
      (spans.headI).1 = start ∧
      (∀ j, start ≤ j → j < t.length → ∃ p ∈ spans, p.1 ≤ j ∧ j < p.2) ∧
      consecOverlapAtMost cfg.overlap_chars spans := by
  intro fuel
  induction fuel with
  | zero => intro start hs hf; omega
  | succ fuel ih =>
    intro start hs hf
    have hmax : 0 < cfg.max_chars := by omega
    have hle := splitStep_le cfg t start
    have hgt := splitStep_gt cfg t start hmax hs
    by_cases hend : t.length ≤ splitStep cfg t start
    · have heq : splitStep cfg t start = t.length := le_antisymm hle hend
      refine ⟨[(start, splitStep cfg t start)], ?_, by simp, ?_, by simp, ?_, ?_⟩
      · rw [splitLoop]
        simp [hend]
      · intro p hp
        simp at hp
        subst hp
        exact ⟨hgt, hle⟩
      · intro j hj1 hj2
        exact ⟨(start, splitStep cfg t start), by simp, hj1, by omega⟩
      · simp [consecOverlapAtMost]
    · push_neg at hend
      have hadv := splitStep_advance cfg t start hend
      have hs' : splitStep cfg t start - cfg.overlap_chars < t.length := by omega
      have hf' : t.length - (splitStep cfg t start - cfg.overlap_chars) ≤ fuel := by
        omega
      obtain ⟨spans', hloop', hne', hbd', hhead', hcov', hchain'⟩ := ih _ hs' hf'
      refine ⟨(start, splitStep cfg t start) :: spans', ?_, by simp, ?_, by simp, ?_, ?_⟩
      · rw [splitLoop]
        simp only [Nat.not_le.mpr hend, if_neg, if_false, hloop']
        simp [Nat.not_le.mpr hend]
      · intro p hp
        rcases List.mem_cons.mp hp with hp | hp
        · subst hp; exact ⟨hgt, hle⟩
        · exact hbd' p hp
      · intro j hj1 hj2
        by_cases hje : j < splitStep cfg t start
        · exact ⟨(start, splitStep cfg t start), by simp, hj1, hje⟩
        · push_neg at hje
          obtain ⟨p, hp, hp1, hp2⟩ := hcov' j (by omega) hj2
          exact ⟨p, List.mem_cons_of_mem _ hp, hp1, hp2⟩
      · rcases spans' with _ | ⟨q, rest⟩
        · exact absurd rfl hne'
        · have hq1 : q.1 = splitStep cfg t start - cfg.overlap_chars := hhead'
          refine List.chain'_cons.mpr ⟨⟨by omega, by omega⟩, hchain'⟩

/-- **C2.** In `_split_with_overlap`: (1) after each emitted piece the loop
recurses with the next window start set to the cut position minus the
overlap — over `Nat` the truncated subtraction `end - overlap` is exactly
Python's `max(0, end - overlap)`; (2) that start strictly advances past the
previous one whenever the overlap is smaller than the emitted piece's length;
(3) whenever the overlap plus the 349-character worst-case nice-cut loss is
smaller than the maximum (true of the defaults 400 + 349 < 2800), the loop
terminates for every input, within `t.length` iterations. -/
theorem chunker_advance_and_termination (cfg : ChunkerCfg) (t : Str)
    (h1 : cfg.overlap_chars + 349 < cfg.max_chars) :
    (∀ start fuel, splitStep cfg t start < t.length →
        splitLoop cfg t start (fuel + 1) =
          (splitLoop cfg t (splitStep cfg t start - cfg.overlap_chars) fuel).map
            (fun rest => sliceStr t start (splitStep cfg t start) :: rest)) ∧
    (∀ start, cfg.overlap_chars < (sliceStr t start (splitStep cfg t start)).length →
        start < splitStep cfg t start - cfg.overlap_chars) ∧
    (cfg.max_chars < t.length → (splitLoop cfg t 0 t.length).isSome = true) := by
  refine ⟨?_, ?_, ?_⟩
  · intro start fuel h2
    rw [splitLoop]
    simp only [Nat.not_le.mpr h2, if_neg, if_false]
    cases h : splitLoop cfg t (splitStep cfg t start - cfg.overlap_chars) fuel <;>
      simp [h]
  · intro start h2
    rw [sliceStr_length] at h2
    have := splitStep_le cfg t start
    omega
  · intro h2
    have h0 : (0 : Nat) < t.length := by omega
    obtain ⟨spans, hloop, -⟩ := splitLoop_spec cfg t h1 t.length 0 h0 (by omega)
    rw [hloop]
    rfl

/-- Witness for `chunker_advance_and_termination` at the default
configuration and a 2801-character input. -/
theorem chunker_advance_and_termination_witness :
    defaultChunker.overlap_chars + 349 < defaultChunker.max_chars ∧
      (splitLoop defaultChunker t2801 0 t2801.length).isSome = true := by
  refine ⟨by decide, ?_⟩
  exact (chunker_advance_and_termination defaultChunker t2801 (by decide)).2.2
    (by simp only [t2801, List.length_replicate]; decide)

/-- **C8 (amended).** For text longer than the configured maximum (under the
terminating parameter regime `overlap + 349 < max`), the pieces returned by
`_split_with_overlap` — before `chunk()`'s trimming and minimum-length
filtering — are slices of a span list that covers the whole text with no gaps
and whose consecutive spans overlap by at most the configured overlap. -/
theorem split_pieces_cover (cfg : ChunkerCfg) (t : Str)
    (h1 : cfg.overlap_chars + 349 < cfg.max_chars)
    (h2 : cfg.max_chars < t.length) :
    ∃ pieces, split_with_overlap cfg t = some pieces ∧
      chunksCorrespond t pieces cfg.overlap_chars := by
  have h0 : (0 : Nat) < t.length := by omega
  obtain ⟨spans, hloop, hne, hbd, hhead, hcov, hchain⟩ :=
    splitLoop_spec cfg t h1 t.length 0 h0 (by omega)
  refine ⟨spans.map (fun p => sliceStr t p.1 p.2), ?_, spans, rfl, ?_, hchain⟩
  · rw [split_with_overlap]
    simp only [Nat.not_le.mpr h2, if_neg, if_false]
    exact hloop
  · intro j hj
    exact hcov j (Nat.zero_le j) hj

/-- Witness for `split_pieces_cover` at the default configuration and a
2801-character input. -/
theorem split_pieces_cover_witness :
    defaultChunker.overlap_chars + 349 < defaultChunker.max_chars ∧
      defaultChunker.max_chars < t2801.length ∧
      ∃ pieces, split_with_overlap defaultChunker t2801 = some pieces ∧
        chunksCorrespond t2801 pieces defaultChunker.overlap_chars := by
  refine ⟨by decide, by simp only [t2801, List.length_replicate]; decide, ?_⟩
  exact split_pieces_cover defaultChunker t2801 (by decide)
    (by simp only [t2801, List.length_replicate]; decide)

/-- **C8 counterexample.** With `max_chars=10`, `overlap=3`, `min=5` and the
22-character record `"x" + 20 spaces + "y"`, the Chunk Normalizer emits no
chunks at all (each trimmed piece falls below the minimum), so the emitted
chunks cannot correspond to spans covering the text: the claim is false of
the chunks `chunk()` actually emits. -/
theorem chunk_output_cover_counterexample :
    chunk cfg8 [ex8] = some [] ∧
    cfg8.max_chars < ex8.text.length ∧
    ¬ chunksCorrespond ex8.text [] cfg8.overlap_chars := by
  refine ⟨by decide, by decide, ?_⟩
  rintro ⟨spans, hmap, hcov, -⟩
  have hsp : spans = [] := List.map_eq_nil_iff.mp hmap.symm
  subst hsp
  obtain ⟨p, hp, -⟩ := hcov 0 (by decide)
  exact absurd hp (List.not_mem_nil p)

/-- **C3 (amended).** A record whose trimmed text has length at most the
configured maximum turns into exactly one chunk carrying the trimmed text
when the record is not skip-flagged and the trimmed text reaches the
configured minimum chunk length, and into no chunk otherwise; in particular
a nonempty trimmed text shorter than the minimum produces no chunk. -/
theorem chunk_small_input (cfg : ChunkerCfg) (ex : ExtractedChunk)
    (h : (pyStrip ex.text).length ≤ cfg.max_chars) :
    chunk cfg [ex] =
      some (if ex.skipped = false ∧ pyStrip ex.text ≠ [] ∧
          cfg.min_chunk_chars ≤ (pyStrip ex.text).length then
        [⟨make_chunk_id ex 0, pyStrip ex.text,
          ⟨ex.source_file, ex.source_ext, ex.page, ex.«section», ex.order, 0⟩⟩]
      else []) := by
  rw [chunk, chunk]
  cases hsk : ex.skipped
  · by_cases hb : pyStrip ex.text = []
    · rw [chunkOne]
      simp [hsk, hb]
    · rw [chunkOne]
      simp only [hsk, Bool.false_eq_true, if_neg, if_false, hb, ite_false]
      rw [split_with_overlap]
      simp only [h, if_pos, ite_true]
      rw [emitPieces]
      have henum : List.enum [pyStrip ex.text] = [(0, pyStrip ex.text)] := rfl
      rw [henum]
      by_cases hm : (pyStrip (pyStrip ex.text)).length < cfg.min_chunk_chars
      · rw [pyStrip_idem] at hm
        simp [List.filterMap, pyStrip_idem, hm, hb, Nat.not_le.mpr hm]
      · rw [pyStrip_idem] at hm
        push_neg at hm
        simp [List.filterMap, pyStrip_idem, hb, hm, Nat.not_lt.mpr hm]
  · rw [chunkOne]
    simp [hsk]

/-- Witness for `chunk_small_input`: a 200-character record at the default
configuration yields exactly one chunk. -/
theorem chunk_small_input_witness :
    (pyStrip exLong.text).length ≤ defaultChunker.max_chars ∧
      chunk defaultChunker [exLong] =
        some (if exLong.skipped = false ∧ pyStrip exLong.text ≠ [] ∧
            defaultChunker.min_chunk_chars ≤ (pyStrip exLong.text).length then
          [⟨make_chunk_id exLong 0, pyStrip exLong.text,
            ⟨exLong.source_file, exLong.source_ext, exLong.page,
              exLong.«section», exLong.order, 0⟩⟩]
        else []) :=
  ⟨by decide, chunk_small_input defaultChunker exLong (by decide)⟩

/-- **C3 counterexample.** The record `"hello"` (trimmed length 5, below the
default minimum 120) is nonempty after trimming yet produces no chunk: "no
chunk exactly when the trimmed input is empty" is false. -/
theorem chunk_small_nonempty_dropped :
    chunk defaultChunker [exHello] = some [] ∧ pyStrip exHello.text ≠ [] := by
  exact ⟨by decide, by decide⟩

/-- **C10.** Chunk identifiers are
`<source_file>|p<page>|o<order>|s<split_index>` with a missing page or order
rendered as `0`; consequently two distinct records — one with `page=None`,
one with `page=0` — receive the identical identifier, so identifiers are not
injective over distinct source records. -/
theorem chunk_id_format_and_collision :
    (∀ (ex : ExtractedChunk) (j : Nat),
        make_chunk_id ex j =
          ex.source_file ++ ('|' :: ['p']) ++ (Nat.repr (ex.page.getD 0)).toList
            ++ ('|' :: ['o']) ++ (Nat.repr (ex.order.getD 0)).toList
            ++ ('|' :: ['s']) ++ (Nat.repr j).toList) ∧
    exPageNone ≠ exPageZero ∧
    make_chunk_id exPageNone 0 = make_chunk_id exPageZero 0 := by
  exact ⟨fun ex j => rfl, by decide, by decide⟩

/-! ## Evidence-merger lemmas -/

theorem hasKey_iff {α : Type} (k : Str) (acc : List (Str × α)) :
    hasKey k acc = true ↔ ∃ p ∈ acc, p.1 = k := by
  induction acc with
  | nil =>
    rw [hasKey]
    constructor
    · intro h
      exact absurd h (by simp)
    · rintro ⟨p, hp, -⟩
      exact absurd hp (List.not_mem_nil p)
  | cons p t ih =>
    rw [hasKey]
    by_cases h : p.1 = k
    · rw [if_pos h]
      simp only [List.mem_cons]
      exact ⟨fun _ => ⟨p, Or.inl rfl, h⟩, fun _ => trivial⟩
    · rw [if_neg h]
      rw [ih]
      simp only [List.mem_cons]
      constructor
      · rintro ⟨q, hq, hk⟩
        exact ⟨q, Or.inr hq, hk⟩
      · rintro ⟨q, rfl | hq, hk⟩
        · exact absurd hk h
        · exact ⟨q, hq, hk⟩

theorem updateEntry_map_fst {α : Type} (k : Str) (f : α → α)
    (acc : List (Str × α)) :
    (updateEntry k f acc).map Prod.fst = acc.map Prod.fst := by
  induction acc with
  | nil => rfl
  | cons p t ih =>
    rw [updateEntry]
    by_cases h : p.1 = k
    · rw [if_pos h]
      simp
    · rw [if_neg h]
      simp [ih]

theorem updateEntry_mem {α : Type} (k : Str) (f : α → α) (acc : List (Str × α)) :
    ∀ p ∈ updateEntry k f acc, p ∈ acc ∨ ∃ q ∈ acc, q.1 = k ∧ p = (q.1, f q.2) := by
  induction acc with
  | nil =>
    rw [updateEntry]
    intro p hp
    exact absurd hp (List.not_mem_nil p)
  | cons q t ih =>
    rw [updateEntry]
    by_cases h : q.1 = k
    · rw [if_pos h]
      intro p hp
      rcases List.mem_cons.mp hp with rfl | hp
      · exact Or.inr ⟨q, List.mem_cons_self _ _, h, rfl⟩
      · exact Or.inl (List.mem_cons_of_mem _ hp)
    · rw [if_neg h]
      intro p hp
      rcases List.mem_cons.mp hp with rfl | hp
      · exact Or.inl (List.mem_cons_self _ _)
      · rcases ih p hp with h' | ⟨q', hq', hq1, rfl⟩
        · exact Or.inl (List.mem_cons_of_mem _ h')
        · exact Or.inr ⟨q', List.mem_cons_of_mem _ hq', hq1, rfl⟩

theorem updateEntry_exists_ne {α : Type} (k₀ : Str) (f : α → α)
    (acc : List (Str × α)) (k : Str) (hne : k ≠ k₀) (P : α → Prop) :
    (∃ p ∈ updateEntry k₀ f acc, p.1 = k ∧ P p.2) ↔
      ∃ p ∈ acc, p.1 = k ∧ P p.2 := by
  induction acc with
  | nil => rw [updateEntry]
  | cons q t ih =>
    rw [updateEntry]
    by_cases h : q.1 = k₀
    · rw [if_pos h]
      have hq : ¬ q.1 = k := by rw [h]; exact fun hc => hne hc.symm
      simp only [List.mem_cons]
      constructor
      · rintro ⟨p, rfl | hp, hk', hP⟩
        · exact absurd hk' hq
        · exact ⟨p, Or.inr hp, hk', hP⟩
      · rintro ⟨p, rfl | hp, hk', hP⟩
        · exact absurd hk' hq
        · exact ⟨p, Or.inr hp, hk', hP⟩
    · rw [if_neg h]
      simp only [List.mem_cons]
      constructor
      · rintro ⟨p, rfl | hp, hk', hP⟩
        · exact ⟨p, Or.inl rfl, hk', hP⟩
        · obtain ⟨p', hp', hk'', hP'⟩ := ih.mp ⟨p, hp, hk', hP⟩
          exact ⟨p', Or.inr hp', hk'', hP'⟩
      · rintro ⟨p, rfl | hp, hk', hP⟩
        · exact ⟨p, Or.inl rfl, hk', hP⟩
        · obtain ⟨p', hp', hk'', hP'⟩ := ih.mpr ⟨p, hp, hk', hP⟩
          exact ⟨p', Or.inr hp', hk'', hP'⟩

theorem updateEntry_exists_eq {α : Type} (k₀ : Str) (f : α → α)
    (acc : List (Str × α)) (hnd : (acc.map Prod.fst).Nodup)
    (hk : hasKey k₀ acc = true) (P : α → Prop) :
    (∃ p ∈ updateEntry k₀ f acc, p.1 = k₀ ∧ P p.2) ↔
      ∃ q ∈ acc, q.1 = k₀ ∧ P (f q.2) := by
  induction acc with
  | nil =>
    rw [hasKey] at hk
    exact absurd hk (by simp)
  | cons q t ih =>
    simp only [List.map_cons, List.nodup_cons] at hnd
    rw [updateEntry]
    rw [hasKey] at hk
    by_cases h : q.1 = k₀
    · rw [if_pos h]
      have hnot : ∀ p ∈ t, ¬ p.1 = k₀ := by
        intro p hp hpk
        apply hnd.1
        rw [h, ← hpk]
        exact List.mem_map_of_mem _ hp
      simp only [List.mem_cons]
      constructor
      · rintro ⟨p, rfl | hp, hk', hP⟩
        · exact ⟨q, Or.inl rfl, h, hP⟩
        · exact absurd hk' (hnot p hp)
      · rintro ⟨p, rfl | hp, hk', hP⟩
        · exact ⟨(p.1, f p.2), Or.inl rfl, h, hP⟩
        · exact absurd hk' (hnot p hp)
    · rw [if_neg h]
      rw [if_neg h] at hk
      simp only [List.mem_cons]
      constructor
      · rintro ⟨p, rfl | hp, hk', hP⟩
        · exact absurd hk' h
        · obtain ⟨p', hp', hk'', hP'⟩ := (ih hnd.2 hk).mp ⟨p, hp, hk', hP⟩
          exact ⟨p', Or.inr hp', hk'', hP'⟩
      · rintro ⟨p, rfl | hp, hk', hP⟩
        · exact absurd hk' h
        · obtain ⟨p', hp', hk'', hP'⟩ := (ih hnd.2 hk).mpr ⟨p, hp, hk', hP⟩
          exact ⟨p', Or.inr hp', hk'', hP'⟩

theorem addBullets_mem (new : List Str) :
    ∀ (bs seen : List Str), (∀ x, x ∈ seen ↔ x ∈ bs.map normalize) →
    ∀ nb, nb ∈ (addBullets bs seen new).map normalize ↔
      (nb ∈ bs.map normalize ∨ nb ∈ new.map normalize) := by
  induction new with
  | nil =>
    intro bs seen hlink nb
    rw [addBullets]
    simp
  | cons b t ih =>
    intro bs seen hlink nb
    rw [addBullets]
    by_cases h : normalize b ∈ seen
    · rw [if_pos h]
      rw [ih bs seen hlink nb]
      have hb : normalize b ∈ bs.map normalize := (hlink _).mp h
      simp only [List.map_cons, List.mem_cons]
      constructor
      · rintro (h' | h')
        · exact Or.inl h'
        · exact Or.inr (Or.inr h')
      · rintro (h' | h' | h')
        · exact Or.inl h'
        · rw [h']
          exact Or.inl hb
        · exact Or.inr h'
    · rw [if_neg h]
      have hlink' : ∀ x, x ∈ normalize b :: seen ↔ x ∈ (bs ++ [b]).map normalize := by
        intro x
        rw [List.mem_cons, hlink x, List.map_append, List.mem_append]
        simp only [List.map_cons, List.map_nil, List.mem_singleton]
        tauto
      rw [ih (bs ++ [b]) (normalize b :: seen) hlink' nb]
      simp only [List.map_append, List.mem_append, List.map_cons, List.mem_cons,
        List.map_nil, List.mem_singleton]
      tauto

/-- The key/normalized-bullet-set semantics of the `mergeByKeyAux` fold: the
result's keys are the accumulator's keys plus the input keys, the result's
entries keep key-consistent representatives with distinct keys, and per key
the normalized bullet texts are the union over accumulator entry and all
input blocks of that key.  `upd` is assumed key-preserving and
bullet-unioning, which `merge_roles` and `dedupe_and_merge_blocks` both
satisfy. -/
theorem mergeByKeyAux_spec {α : Type} (key : α → Str) (upd : α → α → α)
    (bul : α → List Str)
    (hk : ∀ r ex, key (upd r ex) = key ex)
    (hb : ∀ r ex nb, (nb ∈ (bul (upd r ex)).map normalize) ↔
        (nb ∈ (bul ex).map normalize ∨ nb ∈ (bul r).map normalize)) :
    ∀ (l : List α) (acc : List (Str × α)),
      (∀ p ∈ acc, key p.2 = p.1) → ((acc.map Prod.fst).Nodup) →
      (∀ p ∈ mergeByKeyAux key upd acc l, key p.2 = p.1) ∧
      ((mergeByKeyAux key upd acc l).map Prod.fst).Nodup ∧
      (∀ k, (∃ p ∈ mergeByKeyAux key upd acc l, p.1 = k) ↔
          ((∃ p ∈ acc, p.1 = k) ∨ ∃ r ∈ l, key r = k)) ∧
      (∀ k nb, (∃ p ∈ mergeByKeyAux key upd acc l, p.1 = k ∧
            nb ∈ (bul p.2).map normalize) ↔
          ((∃ p ∈ acc, p.1 = k ∧ nb ∈ (bul p.2).map normalize) ∨
           ∃ r ∈ l, key r = k ∧ nb ∈ (bul r).map normalize)) := by
  intro l
  induction l with
  | nil =>
    intro acc hacc hnd
    rw [mergeByKeyAux]
    refine ⟨hacc, hnd, fun k => ?_, fun k nb => ?_⟩
    · constructor
      · exact fun h => Or.inl h
      · rintro (h | ⟨r, hr, -⟩)
        · exact h
        · exact absurd hr (List.not_mem_nil r)
    · constructor
      · exact fun h => Or.inl h
      · rintro (h | ⟨r, hr, -⟩)
        · exact h
        · exact absurd hr (List.not_mem_nil r)
  | cons r rs ih =>
    intro acc hacc hnd
    rw [mergeByKeyAux]
    by_cases hhk : hasKey (key r) acc = true
    · rw [if_pos hhk]
      have hkr : ∃ p ∈ acc, p.1 = key r := (hasKey_iff _ _).mp hhk
      have hacc' : ∀ p ∈ updateEntry (key r) (upd r) acc, key p.2 = p.1 := by
        intro p hp
        rcases updateEntry_mem _ _ _ p hp with h | ⟨q, hq, hq1, rfl⟩
        · exact hacc p h
        · rw [hk]
          exact hacc q hq
      have hnd' : ((updateEntry (key r) (upd r) acc).map Prod.fst).Nodup := by
        rw [updateEntry_map_fst]
        exact hnd
      obtain ⟨w1, w2, w3, w4⟩ := ih (updateEntry (key r) (upd r) acc) hacc' hnd'
      refine ⟨w1, w2, fun k => ?_, fun k nb => ?_⟩
      · rw [w3 k]
        have hkeys : (∃ p ∈ updateEntry (key r) (upd r) acc, p.1 = k) ↔
            ∃ p ∈ acc, p.1 = k := by
          rw [← hasKey_iff, ← hasKey_iff]
          constructor
          · intro h
            rw [hasKey_iff] at h ⊢
            obtain ⟨p, hp, hpk⟩ := h
            have : p.1 ∈ (updateEntry (key r) (upd r) acc).map Prod.fst :=
              List.mem_map_of_mem _ hp
            rw [updateEntry_map_fst] at this
            obtain ⟨q, hq, hqk⟩ := List.mem_map.mp this
            exact ⟨q, hq, by rw [hqk, hpk]⟩
          · intro h
            rw [hasKey_iff] at h ⊢
            obtain ⟨p, hp, hpk⟩ := h
            have : p.1 ∈ (acc.map Prod.fst) := List.mem_map_of_mem _ hp
            rw [← updateEntry_map_fst (key r) (upd r)] at this
            obtain ⟨q, hq, hqk⟩ := List.mem_map.mp this
            exact ⟨q, hq, by rw [hqk, hpk]⟩
        rw [hkeys]
        simp only [List.mem_cons]
        constructor
        · rintro (h | ⟨r', hr', hk'⟩)
          · exact Or.inl h
          · exact Or.inr ⟨r', Or.inr hr', hk'⟩
        · rintro (h | ⟨r', rfl | hr', hk'⟩)
          · exact Or.inl h
          · rw [← hk']
            exact Or.inl hkr
          · exact Or.inr ⟨r', hr', hk'⟩
      · rw [w4 k nb]
        by_cases hkk : k = key r
        · subst hkk
          rw [updateEntry_exists_eq (key r) (upd r) acc hnd hhk
            (fun b => nb ∈ (bul b).map normalize)]
          simp only [List.mem_cons]
          constructor
          · rintro (⟨q, hq, hq1, hnb⟩ | ⟨r', hr', hk', hnb⟩)
            · rcases (hb r q.2 nb).mp hnb with h' | h'
              · exact Or.inl ⟨q, hq, hq1, h'⟩
              · exact Or.inr ⟨r, Or.inl rfl, rfl, h'⟩
            · exact Or.inr ⟨r', Or.inr hr', hk', hnb⟩
          · rintro (⟨q, hq, hq1, hnb⟩ | ⟨r', rfl | hr', hk', hnb⟩)
            · exact Or.inl ⟨q, hq, hq1, (hb r q.2 nb).mpr (Or.inl hnb)⟩
            · obtain ⟨q, hq, hq1⟩ := hkr
              exact Or.inl ⟨q, hq, hq1, (hb r' q.2 nb).mpr (Or.inr hnb)⟩
            · exact Or.inr ⟨r', hr', hk', hnb⟩
        · rw [updateEntry_exists_ne (key r) (upd r) acc k hkk
            (fun b => nb ∈ (bul b).map normalize)]
          simp only [List.mem_cons]
          constructor
          · rintro (h | ⟨r', hr', hk', hnb⟩)
            · exact Or.inl h
            · exact Or.inr ⟨r', Or.inr hr', hk', hnb⟩
          · rintro (h | ⟨r', rfl | hr', hk', hnb⟩)
            · exact Or.inl h
            · exact absurd hk'.symm hkk
            · exact Or.inr ⟨r', hr', hk', hnb⟩
    · rw [if_neg hhk]
      have hnotin : key r ∉ acc.map Prod.fst := by
        intro hc
        apply hhk
        rw [hasKey_iff]
        obtain ⟨q, hq, hqk⟩ := List.mem_map.mp hc
        exact ⟨q, hq, hqk⟩
      have hacc2 : ∀ p ∈ acc ++ [(key r, r)], key p.2 = p.1 := by
        intro p hp
        rcases List.mem_append.mp hp with hp | hp
        · exact hacc p hp
        · rw [List.mem_singleton.mp hp]
      have hnd2 : ((acc ++ [(key r, r)]).map Prod.fst).Nodup := by
        rw [List.map_append]
        rw [List.nodup_append]
        refine ⟨hnd, List.nodup_singleton _, ?_⟩
        intro x hx hx'
        simp only [List.map_cons, List.map_nil, List.mem_singleton] at hx'
        rw [hx'] at hx
        exact hnotin hx
      obtain ⟨w1, w2, w3, w4⟩ := ih (acc ++ [(key r, r)]) hacc2 hnd2
      refine ⟨w1, w2, fun k => ?_, fun k nb => ?_⟩
      · rw [w3 k]
        simp only [List.mem_append, List.mem_singleton, List.mem_cons]
        constructor
        · rintro (⟨p, hp | rfl | hnil, hpk⟩ | ⟨r', hr', hk'⟩)
          · exact Or.inl ⟨p, hp, hpk⟩
          · exact Or.inr ⟨r, Or.inl rfl, hpk⟩
          · exact absurd hnil (List.not_mem_nil _)
          · exact Or.inr ⟨r', Or.inr hr', hk'⟩
        · rintro (⟨p, hp, hpk⟩ | ⟨r', rfl | hr', hk'⟩)
          · exact Or.inl ⟨p, Or.inl hp, hpk⟩
          · exact Or.inl ⟨(key r', r'), Or.inr (Or.inl rfl), hk'⟩
          · exact Or.inr ⟨r', hr', hk'⟩
      · rw [w4 k nb]
        simp only [List.mem_append, List.mem_singleton, List.mem_cons]
        constructor
        · rintro (⟨p, hp | rfl | hnil, hpk, hnb⟩ | ⟨r', hr', hk', hnb⟩)
          · exact Or.inl ⟨p, hp, hpk, hnb⟩
          · exact Or.inr ⟨r, Or.inl rfl, hpk, hnb⟩
          · exact absurd hnil (List.not_mem_nil _)
          · exact Or.inr ⟨r', Or.inr hr', hk', hnb⟩
        · rintro (⟨p, hp, hpk, hnb⟩ | ⟨r', rfl | hr', hk', hnb⟩)
          · exact Or.inl ⟨p, Or.inl hp, hpk, hnb⟩
          · exact Or.inl ⟨(key r', r'), Or.inr (Or.inl rfl), hk', hnb⟩
          · exact Or.inr ⟨r', hr', hk', hnb⟩

/-- Characterization of a whole `mergeByKey` run: the output's keys are the
input keys, and per key the output's normalized bullet set is the union of
the input blocks' with that key. -/
theorem mergeByKey_char {α : Type} (key : α → Str) (upd : α → α → α)
    (bul : α → List Str)
    (hk : ∀ r ex, key (upd r ex) = key ex)
    (hb : ∀ r ex nb, (nb ∈ (bul (upd r ex)).map normalize) ↔
        (nb ∈ (bul ex).map normalize ∨ nb ∈ (bul r).map normalize))
    (l : List α) :
    (∀ k, (∃ b ∈ mergeByKey key upd l, key b = k) ↔ ∃ r ∈ l, key r = k) ∧
    (∀ k nb, (∃ b ∈ mergeByKey key upd l, key b = k ∧
          nb ∈ (bul b).map normalize) ↔
        ∃ r ∈ l, key r = k ∧ nb ∈ (bul r).map normalize) := by
  obtain ⟨w1, w2, w3, w4⟩ := mergeByKeyAux_spec key upd bul hk hb l []
    (fun p hp => absurd hp (List.not_mem_nil p)) (by simp)
  constructor
  · intro k
    constructor
    · rintro ⟨b, hbm, hbk⟩
      obtain ⟨p, hp, rfl⟩ := List.mem_map.mp hbm
      have hw := w1 p hp
      rcases (w3 k).mp ⟨p, hp, by rw [← hw, hbk]⟩ with ⟨q, hq, -⟩ | h3
      · exact absurd hq (List.not_mem_nil q)
      · exact h3
    · intro h
      obtain ⟨p, hp, hpk⟩ := (w3 k).mpr (Or.inr h)
      exact ⟨p.2, List.mem_map_of_mem _ hp, by rw [w1 p hp, hpk]⟩
  · intro k nb
    constructor
    · rintro ⟨b, hbm, hbk, hnb⟩
      obtain ⟨p, hp, rfl⟩ := List.mem_map.mp hbm
      have hw := w1 p hp
      rcases (w4 k nb).mp ⟨p, hp, by rw [← hw, hbk], hnb⟩ with ⟨q, hq, -⟩ | h4
      · exact absurd hq (List.not_mem_nil q)
      · exact h4
    · intro h
      obtain ⟨p, hp, hpk, hnb⟩ := (w4 k nb).mpr (Or.inr h)
      exact ⟨p.2, List.mem_map_of_mem _ hp, by rw [w1 p hp, hpk], hnb⟩

theorem roleKey_mergeRoleInto (r ex : RoleBlock) :
    roleKey (mergeRoleInto r ex) = roleKey ex := rfl

theorem bullets_mergeRoleInto (r ex : RoleBlock) (nb : Str) :
    nb ∈ (mergeRoleInto r ex).bullets.map normalize ↔
      (nb ∈ ex.bullets.map normalize ∨ nb ∈ r.bullets.map normalize) :=
  addBullets_mem r.bullets ex.bullets (ex.bullets.map normalize)
    (fun _ => Iff.rfl) nb

theorem roleKey_mergeBlockInto (b ex : ExperienceBlock) :
    (mergeBlockInto b ex).role_key = ex.role_key := rfl

theorem bullets_mergeBlockInto (b ex : ExperienceBlock) (nb : Str) :
    nb ∈ (mergeBlockInto b ex).bullets.map normalize ↔
      (nb ∈ ex.bullets.map normalize ∨ nb ∈ b.bullets.map normalize) :=
  addBullets_mem b.bullets ex.bullets (ex.bullets.map normalize)
    (fun _ => Iff.rfl) nb

theorem merge_roles_char (l : List RoleBlock) :
    (∀ k, (∃ b ∈ merge_roles l, roleKey b = k) ↔ ∃ r ∈ l, roleKey r = k) ∧
    (∀ k nb, (∃ b ∈ merge_roles l, roleKey b = k ∧
          nb ∈ b.bullets.map normalize) ↔
        ∃ r ∈ l, roleKey r = k ∧ nb ∈ r.bullets.map normalize) :=
  mergeByKey_char roleKey mergeRoleInto (fun r => r.bullets)
    roleKey_mergeRoleInto bullets_mergeRoleInto l

theorem dedupe_blocks_char (l : List ExperienceBlock) :
    (∀ k, (∃ b ∈ dedupe_and_merge_blocks l, b.role_key = k) ↔
        ∃ r ∈ l, r.role_key = k) ∧
    (∀ k nb, (∃ b ∈ dedupe_and_merge_blocks l, b.role_key = k ∧
          nb ∈ b.bullets.map normalize) ↔
        ∃ r ∈ l, r.role_key = k ∧ nb ∈ r.bullets.map normalize) := by
  have h := mergeByKey_char (fun b : ExperienceBlock => b.role_key)
    mergeBlockInto (fun b => b.bullets)
    (fun r ex => roleKey_mergeBlockInto r ex)
    (fun r ex nb => bullets_mergeBlockInto r ex nb) l
  unfold dedupe_and_merge_blocks
  exact h

/-- **C1 (amended).** Both mergers are commutative in document processing
order as far as the merged identity and evidence go: for any permutation of
the input block list, the merged output has the same merge keys, and per key
the same set of normalized bullet texts.  (The chosen raw header/dates/title
strings are *not* order-independent — `merge_roles` keeps the first-seen
spelling and `dedupe_and_merge_blocks` resolves ties by arrival order — see
the counterexample.) -/
theorem merger_commutative_keys_bullets (l1 l2 : List RoleBlock)
    (g1 g2 : List ExperienceBlock) (hp : l1.Perm l2) (hq : g1.Perm g2) :
    (∀ k, (∃ b ∈ merge_roles l1, roleKey b = k) ↔
        ∃ b ∈ merge_roles l2, roleKey b = k) ∧
    (∀ k nb, (∃ b ∈ merge_roles l1, roleKey b = k ∧
          nb ∈ b.bullets.map normalize) ↔
        ∃ b ∈ merge_roles l2, roleKey b = k ∧ nb ∈ b.bullets.map normalize) ∧
    (∀ k, (∃ b ∈ dedupe_and_merge_blocks g1, b.role_key = k) ↔
        ∃ b ∈ dedupe_and_merge_blocks g2, b.role_key = k) ∧
    (∀ k nb, (∃ b ∈ dedupe_and_merge_blocks g1, b.role_key = k ∧
          nb ∈ b.bullets.map normalize) ↔
        ∃ b ∈ dedupe_and_merge_blocks g2, b.role_key = k ∧
          nb ∈ b.bullets.map normalize) := by
  refine ⟨fun k => ?_, fun k nb => ?_, fun k => ?_, fun k nb => ?_⟩
  · rw [(merge_roles_char l1).1 k, (merge_roles_char l2).1 k]
    constructor
    · rintro ⟨r, hr, h⟩
      exact ⟨r, hp.mem_iff.mp hr, h⟩
    · rintro ⟨r, hr, h⟩
      exact ⟨r, hp.mem_iff.mpr hr, h⟩
  · rw [(merge_roles_char l1).2 k nb, (merge_roles_char l2).2 k nb]
    constructor
    · rintro ⟨r, hr, h⟩
      exact ⟨r, hp.mem_iff.mp hr, h⟩
    · rintro ⟨r, hr, h⟩
      exact ⟨r, hp.mem_iff.mpr hr, h⟩
  · rw [(dedupe_blocks_char g1).1 k, (dedupe_blocks_char g2).1 k]
    constructor
    · rintro ⟨r, hr, h⟩
      exact ⟨r, hq.mem_iff.mp hr, h⟩
    · rintro ⟨r, hr, h⟩
      exact ⟨r, hq.mem_iff.mpr hr, h⟩
  · rw [(dedupe_blocks_char g1).2 k nb, (dedupe_blocks_char g2).2 k nb]
    constructor
    · rintro ⟨r, hr, h⟩
      exact ⟨r, hq.mem_iff.mp hr, h⟩
    · rintro ⟨r, hr, h⟩
      exact ⟨r, hq.mem_iff.mpr hr, h⟩

/-- Witness for `merger_commutative_keys_bullets` on a concrete swap. -/
theorem merger_commutative_keys_bullets_witness :
    (∃ b ∈ merge_roles [rAcme1, rAcme2], roleKey b = roleKey rAcme1) ↔
      ∃ b ∈ merge_roles [rAcme2, rAcme1], roleKey b = roleKey rAcme1 :=
  (merger_commutative_keys_bullets [rAcme1, rAcme2] [rAcme2, rAcme1]
    [bAcme1] [bAcme1] (List.Perm.swap rAcme2 rAcme1 [])
    (List.Perm.refl [bAcme1])).1 (roleKey rAcme1)

/-- **C1 counterexample.** Reversing the two equal-keyed blocks changes the
merged representative's company line (`merge_roles` keeps the first-seen
header fields), so the full claim — same chosen header/dates/title values
under any permutation — is false. -/
theorem merge_roles_header_order_dependent :
    [rAcme1, rAcme2].Perm [rAcme2, rAcme1] ∧
    roleKey rAcme1 = roleKey rAcme2 ∧
    (merge_roles [rAcme1, rAcme2]).map RoleBlock.company_line =
      [("Acme Corp").toList] ∧
    (merge_roles [rAcme2, rAcme1]).map RoleBlock.company_line =
      [("ACME  CORP").toList] :=
  ⟨List.Perm.swap rAcme2 rAcme1 [], by decide, by decide, by decide⟩

/-- **C4 (amended).** On a key collision, `dedupe_and_merge_blocks` keeps
per field whichever of the two candidate strings is strictly longer (the
existing one on ties), for `title_company` and `dates`; `merge_roles`
performs no such replacement at all — the merged representative's
company/dates/title lines are always the first-seen block's, whatever the
lengths. -/
theorem merged_header_field_selection (b1 b2 : ExperienceBlock)
    (r1 r2 : RoleBlock) (hbk : b1.role_key = b2.role_key)
    (hrk : roleKey r1 = roleKey r2) :
    (dedupe_and_merge_blocks [b1, b2]).map
        (fun b => (b.title_company, b.dates)) =
      [(if b1.title_company.length < b2.title_company.length
          then b2.title_company else b1.title_company,
        if b1.dates.length < b2.dates.length then b2.dates else b1.dates)] ∧
    (merge_roles [r1, r2]).map
        (fun r => (r.company_line, r.dates_line, r.title_line)) =
      [(r1.company_line, r1.dates_line, r1.title_line)] := by
  constructor
  · have h1 : mergeByKeyAux (fun b => b.role_key) mergeBlockInto [] [b1, b2] =
        [(b1.role_key, mergeBlockInto b2 b1)] := by
      rw [mergeByKeyAux]
      rw [if_neg (by rw [hasKey]; simp)]
      rw [List.nil_append]
      rw [mergeByKeyAux]
      rw [if_pos (by rw [hasKey, if_pos hbk])]
      rw [updateEntry, if_pos hbk]
      rw [mergeByKeyAux]
    rw [dedupe_and_merge_blocks, mergeByKey, h1]
    rfl
  · have h1 : mergeByKeyAux roleKey mergeRoleInto [] [r1, r2] =
        [(roleKey r1, mergeRoleInto r2 r1)] := by
      rw [mergeByKeyAux]
      rw [if_neg (by rw [hasKey]; simp)]
      rw [List.nil_append]
      rw [mergeByKeyAux]
      rw [if_pos (by rw [hasKey, if_pos hrk])]
      rw [updateEntry, if_pos hrk]
      rw [mergeByKeyAux]
    rw [merge_roles, mergeByKey, h1]
    rfl

/-- Witness for `merged_header_field_selection` on concrete equal-keyed
blocks. -/
theorem merged_header_field_selection_witness :
    (dedupe_and_merge_blocks [bAcme1, bAcme2]).map
        (fun b => (b.title_company, b.dates)) =
      [(if bAcme1.title_company.length < bAcme2.title_company.length
          then bAcme2.title_company else bAcme1.title_company,
        if bAcme1.dates.length < bAcme2.dates.length
          then bAcme2.dates else bAcme1.dates)] ∧
    (merge_roles [rAcme1, rAcme2]).map
        (fun r => (r.company_line, r.dates_line, r.title_line)) =
      [(rAcme1.company_line, rAcme1.dates_line, rAcme1.title_line)] :=
  merged_header_field_selection bAcme1 bAcme2 rAcme1 rAcme2 (by decide) (by decide)

/-- **C4 counterexample.** Two `merge_roles` inputs with the same key where
the second company spelling is strictly longer: the merged block keeps the
first (shorter) spelling, so "the merged field equals whichever candidate is
longer" is false for the strict pipeline. -/
theorem merge_roles_not_longest :
    roleKey rAcme1 = roleKey rAcme2 ∧
    rAcme1.company_line.length < rAcme2.company_line.length ∧
    (merge_roles [rAcme1, rAcme2]).map RoleBlock.company_line =
      [rAcme1.company_line] :=
  ⟨by decide, by decide, by decide⟩

/-! ## Extractor scan lemmas -/

theorem parseWorkAux_shape (sf : Str) :
    ∀ (fuel : Nat) (lines : List Str) (b : RoleBlock),
      b ∈ parseWorkAux sf fuel lines →
      b.bullets ≠ [] ∧ dateLineSearch b.dates_line = true := by
  intro fuel
  induction fuel with
  | zero =>
    intro lines b hb
    rw [parseWorkAux] at hb
    exact absurd hb (List.not_mem_nil b)
  | succ fuel ih =>
    intro lines b hb
    match lines with
    | [] =>
      rw [parseWorkAux] at hb
      exact absurd hb (List.not_mem_nil b)
    | [company] =>
      rw [parseWorkAux] at hb
      · exact ih _ b hb
      · exact fun _ _ _ h => List.noConfusion h
    | [company, l1] =>
      rw [parseWorkAux] at hb
      · exact ih _ b hb
      · exact fun _ _ _ h => by
          injection h with h1 h2
          exact List.noConfusion h2
    | company :: l1 :: l2 :: rest2 =>
      rw [parseWorkAux] at hb
      by_cases hd : dateLineSearch l1 = true
      · rw [if_pos hd] at hb
        rcases List.mem_append.mp hb with hb | hb
        · by_cases hr : (bulletScan [] false rest2).1 ≠ []
          · rw [if_pos hr] at hb
            rw [List.mem_singleton.mp hb]
            exact ⟨hr, hd⟩
          · rw [if_neg hr] at hb
            exact absurd hb (List.not_mem_nil b)
        · exact ih _ b hb
      · rw [if_neg hd] at hb
        exact ih _ b hb

theorem buildScan_bullets (sf : Str) :
    ∀ (fuel : Nat) (lines : List Str) (b : ExperienceBlock),
      b ∈ buildScan sf fuel lines → b.bullets ≠ [] := by
  intro fuel
  induction fuel with
  | zero =>
    intro lines b hb
    rw [buildScan] at hb
    exact absurd hb (List.not_mem_nil b)
  | succ fuel ih =>
    intro lines b hb
    match lines with
    | [] =>
      rw [buildScan] at hb
      exact absurd hb (List.not_mem_nil b)
    | ln :: rest =>
      rw [buildScan] at hb
      by_cases hs : is_section_header ln = true
      · rw [if_pos hs] at hb
        exact ih _ b hb
      · rw [if_neg hs] at hb
        by_cases hh : looks_like_role_header ln = true
        · rw [if_pos hh] at hb
          rcases List.mem_append.mp hb with hb | hb
          · by_cases hr : (collectLines rest).1 ≠ []
            · rw [if_pos hr] at hb
              rw [List.mem_singleton.mp hb]
              exact hr
            · rw [if_neg hr] at hb
              exact absurd hb (List.not_mem_nil b)
          · exact ih _ b hb
        · rw [if_neg hh] at hb
          exact ih _ b hb

/-- **C9.** Neither extraction strategy ever emits a block with an empty
bullet list: every role block out of the strict `parse_work_experience` and
every block out of the generic `build_experience_blocks` has at least one
bullet. -/
theorem extractors_no_empty_bullets (work_text sf : Str)
    (rag_chunks : List RAGChunk) :
    (∀ b ∈ parse_work_experience work_text sf, b.bullets ≠ []) ∧
    (∀ b ∈ build_experience_blocks rag_chunks, b.bullets ≠ []) := by
  constructor
  · intro b hb
    exact (parseWorkAux_shape sf _ _ b hb).1
  · intro b hb
    rw [build_experience_blocks] at hb
    obtain ⟨s, hs, hbs⟩ := List.mem_flatten.mp hb
    obtain ⟨p, -, rfl⟩ := List.mem_map.mp hs
    exact buildScan_bullets p.1 _ _ b hbs

/-- Witness for `extractors_no_empty_bullets` on concrete inputs for both
strategies. -/
theorem extractors_no_empty_bullets_witness :
    (rb5 ∈ parse_work_experience t5 ['f'] ∧ rb5.bullets ≠ []) ∧
    (bb9 ∈ build_experience_blocks [ragC9] ∧ bb9.bullets ≠ []) := by
  refine ⟨⟨by decide, ?_⟩, ⟨by decide, ?_⟩⟩
  · exact (extractors_no_empty_bullets t5 ['f'] [ragC9]).1 rb5 (by decide)
  · exact (extractors_no_empty_bullets t5 ['f'] [ragC9]).2 bb9 (by decide)

/-- **C5 (amended).** The strict extractor starts a role block on the date
check alone: every emitted block's dates line matches `DATE_LINE_RE`, but no
check whatsoever is applied to the third (title) line — blocks whose title
line is long and lower-case are emitted (see the counterexample). -/
theorem parse_role_start_checks_date_only (work_text sf : Str)
    (b : RoleBlock) (hb : b ∈ parse_work_experience work_text sf) :
    dateLineSearch b.dates_line = true :=
  (parseWorkAux_shape sf _ _ b hb).2

/-- Witness for `parse_role_start_checks_date_only`. -/
theorem parse_role_start_checks_date_only_witness :
    dateLineSearch rb5.dates_line = true :=
  parse_role_start_checks_date_only t5 ['f'] rb5 (by decide)

/-- **C5 counterexample.** `parse_work_experience` starts a role block whose
third line is the 30-character, lower-case text `developed the system in
python` — a line that is neither short nor upper-case — so the claimed
title-line check does not exist. -/
theorem parse_starts_block_without_title_check :
    (parse_work_experience t5 ['f']).map RoleBlock.title_line =
      [("developed the system in python").toList] ∧
    pyIsupper ("developed the system in python").toList = false ∧
    (("developed the system in python").toList).length = 30 :=
  ⟨by decide, by decide, by decide⟩

/-! ## Template-slot extractor lemmas -/

theorem findIdx?_first (p : Str → Bool) :
    ∀ (l : List Str) (i : Nat), List.findIdx? p l = some i →
      i < l.length ∧ p (l.getD i []) = true ∧
        ∀ j, j < i → p (l.getD j []) = false := by
  intro l
  induction l with
  | nil =>
    intro i h
    simp [List.findIdx?] at h
  | cons x xs ih =>
    intro i h
    rw [List.findIdx?_cons] at h
    by_cases hp : p x = true
    · rw [if_pos hp] at h
      injection h with h
      subst h
      exact ⟨by simp, by simpa using hp,
        fun j hj => absurd hj (Nat.not_lt_zero j)⟩
    · rw [if_neg hp] at h
      rw [List.findIdx?_succ] at h
      rcases hx : List.findIdx? p xs with _ | i'
      · rw [hx] at h
        simp at h
      · rw [hx] at h
        simp only [Option.map_some'] at h
        injection h with h
        subst h
        obtain ⟨h1, h2, h3⟩ := ih i' hx
        refine ⟨by simpa using h1, by simpa using h2, ?_⟩
        intro j hj
        cases j with
        | zero =>
          rw [List.getD_cons_zero]
          exact Bool.eq_false_iff.mpr hp
        | succ j =>
          rw [List.getD_cons_succ]
          exact h3 j (by omega)

theorem find?_range_first (q : Nat → Bool) :
    ∀ (n j : Nat), (List.range n).find? q = some j →
      j < n ∧ q j = true ∧ ∀ i, i < j → q i = false := by
  intro n
  induction n with
  | zero =>
    intro j h
    rw [List.range_zero] at h
    exact absurd h (by simp)
  | succ n ih =>
    intro j h
    rw [List.range_succ, List.find?_append] at h
    rcases hn : (List.range n).find? q with _ | j'
    · rw [hn] at h
      rw [Option.none_or] at h
      by_cases hqn : q n = true
      · rw [List.find?_cons_of_pos _ hqn] at h
        injection h with h
        subst h
        refine ⟨Nat.lt_succ_self n, hqn, ?_⟩
        intro i hi
        exact Bool.eq_false_iff.mpr
          (List.find?_eq_none.mp hn i (List.mem_range.mpr hi))
      · rw [List.find?_cons_of_neg _ hqn] at h
        exact absurd h (by simp)
    · rw [hn] at h
      have h2 : (some j' : Option Nat) = some j := h
      injection h2 with h
      subst h
      obtain ⟨h1, h2, h3⟩ := ih j' hn
      exact ⟨by omega, h2, h3⟩

theorem find_header_idx_none (lines : List Str) (hs : List Str) :
    find_header_idx lines hs = none ↔ ∀ ln ∈ lines, normalize ln ∉ hs := by
  rw [find_header_idx, List.findIdx?_eq_none_iff]
  constructor
  · intro h ln hln hmem
    have := h ln hln
    simp [hmem] at this
  · intro h ln hln
    simp [h ln hln]

theorem find_header_idx_first (lines : List Str) (hs : List Str) (i : Nat)
    (h : find_header_idx lines hs = some i) : isFirstHeaderAt lines hs i := by
  rw [find_header_idx] at h
  obtain ⟨h1, h2, h3⟩ := findIdx?_first _ lines i h
  refine ⟨h1, by simpa using h2, ?_⟩
  intro j hj
  have := h3 j hj
  simpa using this

theorem isFirstHeaderAt_unique (lines : List Str) (hs : List Str) (i i' : Nat)
    (h : isFirstHeaderAt lines hs i) (h' : isFirstHeaderAt lines hs i') :
    i = i' := by
  rcases Nat.lt_trichotomy i i' with hc | hc | hc
  · exact absurd h.2.1 (h'.2.2 i hc)
  · exact hc
  · exact absurd h'.2.1 (h.2.2 i' hc)

theorem eduSectionEnd_spec (lines : List Str) (ei : Nat) :
    isEduEndAt lines ei (eduSectionEnd lines ei) := by
  rw [eduSectionEnd]
  rcases hf : (List.range lines.length).find?
      (fun j => decide (ei < j) &&
        decide (normalize (lines.getD j []) ∈ OTHER_HEADERS)) with _ | j
  · show isEduEndAt lines ei lines.length
    left
    refine ⟨rfl, ?_⟩
    intro j hj1 hj2 hmem
    apply List.find?_eq_none.mp hf j (List.mem_range.mpr hj2)
    simp only [Bool.and_eq_true, decide_eq_true_eq]
    exact ⟨hj1, hmem⟩
  · show isEduEndAt lines ei j
    obtain ⟨h1, h2, h3⟩ := find?_range_first _ lines.length j hf
    simp only [Bool.and_eq_true, decide_eq_true_eq] at h2
    right
    refine ⟨h2.1, h1, h2.2, ?_⟩
    intro j' hj1 hj2 hmem
    have h0 := h3 j' hj2
    have h4 : (decide (ei < j') &&
        decide (normalize (lines.getD j' []) ∈ OTHER_HEADERS)) = true := by
      simp only [Bool.and_eq_true, decide_eq_true_eq]
      exact ⟨hj1, hmem⟩
    rw [h0] at h4
    exact Bool.noConfusion h4

/-- **C6.** `extract_template_parts` fails exactly when the normalized work
header is absent, the normalized academic-education header is absent, or the
first education header does not come strictly after the first work header;
on success it returns the lines up to and including the work header, the
single education header line, and the lines from the education-section end
(the first later line matching another known section header, or end of
text) onward. -/
theorem template_parts_spec (full_text : Str) :
    (extract_template_parts full_text = none ↔
      ((¬ ∃ ln ∈ templateLines full_text, normalize ln ∈ WORK_HEADERS) ∨
       (¬ ∃ ln ∈ templateLines full_text, normalize ln ∈ EDU_HEADERS) ∨
       (∃ wi ei, isFirstHeaderAt (templateLines full_text) WORK_HEADERS wi ∧
          isFirstHeaderAt (templateLines full_text) EDU_HEADERS ei ∧
          ei ≤ wi))) ∧
    (∀ pre eh suf,
      extract_template_parts full_text = some (pre, eh, suf) →
      ∃ wi ei, isFirstHeaderAt (templateLines full_text) WORK_HEADERS wi ∧
        isFirstHeaderAt (templateLines full_text) EDU_HEADERS ei ∧ wi < ei ∧
        pre = (templateLines full_text).take (wi + 1) ∧
        eh = [(templateLines full_text).getD ei []] ∧
        ∃ e, isEduEndAt (templateLines full_text) ei e ∧
          suf = (templateLines full_text).drop e) := by
  set lines := templateLines full_text with hlines
  have hmem_of_first : ∀ hs i, isFirstHeaderAt lines hs i →
      ∃ ln ∈ lines, normalize ln ∈ hs := by
    intro hs i hfi
    refine ⟨lines.getD i [], ?_, hfi.2.1⟩
    rw [List.getD_eq_getElem?_getD, List.getElem?_eq_getElem hfi.1]
    exact List.getElem_mem _
  have habsent : ∀ hs, find_header_idx lines hs = none ↔
      ¬ ∃ ln ∈ lines, normalize ln ∈ hs := by
    intro hs
    rw [find_header_idx_none]
    constructor
    · rintro h ⟨ln, hln, hm⟩
      exact h ln hln hm
    · intro h ln hln hm
      exact h ⟨ln, hln, hm⟩
  rw [extract_template_parts]
  rw [← hlines]
  rcases hw : find_header_idx lines WORK_HEADERS with _ | wi
  · constructor
    · constructor
      · intro _
        exact Or.inl ((habsent WORK_HEADERS).mp hw)
      · intro _
        rcases hedu : find_header_idx lines EDU_HEADERS with _ | ei
        · rfl
        · rfl
    · intro pre eh suf h
      rcases hedu : find_header_idx lines EDU_HEADERS with _ | ei <;>
        rw [hedu] at h <;> exact absurd h (by simp)
  · rcases hedu : find_header_idx lines EDU_HEADERS with _ | ei
    · constructor
      · exact ⟨fun _ => Or.inr (Or.inl ((habsent EDU_HEADERS).mp hedu)),
          fun _ => rfl⟩
      · intro pre eh suf h
        exact absurd h (by simp)
    · have hwf := find_header_idx_first lines WORK_HEADERS wi hw
      have hef := find_header_idx_first lines EDU_HEADERS ei hedu
      have hval : (match (some wi : Option Nat), (some ei : Option Nat) with
          | some work_idx, some edu_idx =>
            if edu_idx ≤ work_idx then none
            else some (lines.take (work_idx + 1), [lines.getD edu_idx []],
              lines.drop (eduSectionEnd lines edu_idx))
          | _, _ => none) =
          (if ei ≤ wi then (none : Option (List Str × List Str × List Str))
           else some (lines.take (wi + 1), [lines.getD ei []],
             lines.drop (eduSectionEnd lines ei))) := rfl
      rw [hval]
      by_cases hle : ei ≤ wi
      · rw [if_pos hle]
        constructor
        · exact ⟨fun _ => Or.inr (Or.inr ⟨wi, ei, hwf, hef, hle⟩),
            fun _ => rfl⟩
        · intro pre eh suf h
          exact absurd h (by simp)
      · rw [if_neg hle]
        push_neg at hle
        constructor
        · constructor
          · intro h
            exact absurd h (by simp)
          · rintro (h | h | ⟨wi', ei', hw', he', hle'⟩)
            · exact absurd (hmem_of_first WORK_HEADERS wi hwf) h
            · exact absurd (hmem_of_first EDU_HEADERS ei hef) h
            · rw [isFirstHeaderAt_unique lines WORK_HEADERS wi' wi hw' hwf] at hle'
              rw [isFirstHeaderAt_unique lines EDU_HEADERS ei' ei he' hef] at hle'
              omega
        · intro pre eh suf h
          injection h with h
          injection h with h1 h
          injection h with h2 h3
          exact ⟨wi, ei, hwf, hef, hle, h1.symm, h2.symm,
            eduSectionEnd lines ei, eduSectionEnd_spec lines ei, h3.symm⟩

/-- Witness for `template_parts_spec` on a concrete template. -/
theorem template_parts_spec_witness :
    ∃ wi ei, isFirstHeaderAt (templateLines t6) WORK_HEADERS wi ∧
      isFirstHeaderAt (templateLines t6) EDU_HEADERS ei ∧ wi < ei ∧
      (templateLines t6).take 2 = (templateLines t6).take (wi + 1) ∧
      [("ACADEMIC EDUCATION").toList] = [(templateLines t6).getD ei []] ∧
      ∃ e, isEduEndAt (templateLines t6) ei e ∧
        (templateLines t6).drop 5 = (templateLines t6).drop e :=
  (template_parts_spec t6).2 ((templateLines t6).take 2)
    [("ACADEMIC EDUCATION").toList] ((templateLines t6).drop 5) (by decide)

/-! ## Round-trip toolkit -/

theorem pyStrip_cons_ws (c : Char) (x : Str) (hc : c.isWhitespace = true) :
    pyStrip (c :: x) = pyStrip x := by
  rw [pyStrip_eq_rdrop_drop, pyStrip_eq_rdrop_drop, List.dropWhile_cons,
    if_pos hc]

theorem pyStrip_concat_ws (x : Str) (c : Char) (hc : c.isWhitespace = true) :
    pyStrip (x ++ [c]) = pyStrip x := by
  rw [pyStrip_eq_rdrop_drop, pyStrip_eq_rdrop_drop, List.dropWhile_append]
  by_cases h : (List.dropWhile Char.isWhitespace x).isEmpty = true
  · rw [if_pos h]
    rw [List.isEmpty_iff] at h
    rw [h]
    have h1 : List.dropWhile Char.isWhitespace [c] = [] := by
      rw [List.dropWhile_cons, if_pos hc]
      rfl
    rw [h1]
  · rw [if_neg h]
    exact List.rdropWhile_concat_pos _ _ c hc

theorem pyStrip_eq_self (a : Char) (x : Str) (w : Str) (b : Char)
    (hax : a :: x = w ++ [b]) (ha : a.isWhitespace = false)
    (hb : b.isWhitespace = false) : pyStrip (a :: x) = a :: x := by
  rw [pyStrip_eq_rdrop_drop, List.dropWhile_cons, if_neg (by simp [ha]), hax]
  exact List.rdropWhile_concat_neg _ w b (by simp [hb])

theorem lineSafe_ends (x : Str) (h : lineSafe x) :
    ∃ a y w b, x = a :: y ∧ x = w ++ [b] ∧
      a.isWhitespace = false ∧ b.isWhitespace = false := by
  obtain ⟨hstrip, hne, -, -⟩ := h
  rcases hx : x with _ | ⟨a, y⟩
  · exact absurd hx hne
  · subst hx
    have hdw : List.dropWhile Char.isWhitespace (a :: y) = a :: y := by
      rw [← hstrip]
      exact dropWhile_pyStrip (a :: y)
    have ha : a.isWhitespace = false := by
      by_contra hc
      have hc' : a.isWhitespace = true := by
        revert hc
        cases a.isWhitespace <;> simp
      rw [List.dropWhile_cons, if_pos hc'] at hdw
      have hlen : (List.dropWhile Char.isWhitespace y).length ≤ y.length :=
        (List.dropWhile_sublist _).length_le
      rw [hdw] at hlen
      simp at hlen
    obtain ⟨w, b, hwb⟩ : ∃ w b, a :: y = w ++ [b] := by
      rcases List.eq_nil_or_concat (a :: y) with h' | ⟨w, b, h'⟩
      · exact absurd h' (by simp)
      · exact ⟨w, b, by rw [← List.concat_eq_append]; exact h'⟩
    have hrd : List.rdropWhile Char.isWhitespace (a :: y) = a :: y := by
      conv_lhs => rw [← hdw]
      rw [← pyStrip_eq_rdrop_drop]
      exact hstrip
    have hb : b.isWhitespace = false := by
      by_contra hc
      have hc' : b.isWhitespace = true := by
        revert hc
        cases b.isWhitespace <;> simp
      rw [hwb, List.rdropWhile_concat_pos _ _ b hc'] at hrd
      have hpre := List.rdropWhile_prefix Char.isWhitespace w
      rw [hrd] at hpre
      have := hpre.length_le
      simp at this
    exact ⟨a, y, w, b, rfl, hwb, ha, hb⟩

theorem lineSafe_pyStrip_bullet (b : Str) (h : lineSafe b) :
    pyStrip ('•' :: ' ' :: b) = '•' :: ' ' :: b := by
  obtain ⟨a, y, w, c, hay, hwc, -, hc⟩ := lineSafe_ends b h
  have hshape : '•' :: ' ' :: b = ('•' :: ' ' :: w) ++ [c] := by
    rw [hwc]
    rfl
  exact pyStrip_eq_self '•' (' ' :: b) ('•' :: ' ' :: w) c hshape (by decide) hc

theorem joinWith_nil (sep : Str) : joinWith sep [] = [] := rfl

theorem joinWith_single (sep : Str) (x : Str) : joinWith sep [x] = x := by
  simp [joinWith, List.intercalate]

theorem joinWith_cons₂ (sep : Str) (x y : Str) (l : List Str) :
    joinWith sep (x :: y :: l) = x ++ sep ++ joinWith sep (y :: l) := by
  simp [joinWith, List.intercalate, List.intersperse]

theorem joinWith_concat (sep : Str) (z : Str) :
    ∀ (ps : List Str), ps ≠ [] →
      joinWith sep (ps ++ [z]) = joinWith sep ps ++ sep ++ z := by
  intro ps
  induction ps with
  | nil => intro h; exact absurd rfl h
  | cons x t ih =>
    intro _
    cases t with
    | nil =>
      rw [List.cons_append, List.nil_append, joinWith_cons₂, joinWith_single,
        joinWith_single]
    | cons y t' =>
      have ih' := ih (by simp)
      rw [List.cons_append] at ih'
      rw [List.cons_append, List.cons_append,
        joinWith_cons₂ sep x y (t' ++ [z]), joinWith_cons₂ sep x y t', ih']
      simp [List.append_assoc]

theorem pySplitlines_append_nl (x : Str) (hn : '\n' ∉ x) (hr : '\r' ∉ x) :
    ∀ r : Str, pySplitlines (x ++ '\n' :: r) = x :: pySplitlines r := by
  induction x with
  | nil =>
    intro r
    rw [List.nil_append, pySplitlines]
  | cons c x' ih =>
    intro r
    have hc_n : c ≠ '\n' := fun hc => hn (by rw [hc]; exact List.mem_cons_self _ _)
    have hc_r : c ≠ '\r' := fun hc => hr (by rw [hc]; exact List.mem_cons_self _ _)
    have ih' := ih (fun hm => hn (List.mem_cons_of_mem _ hm))
      (fun hm => hr (List.mem_cons_of_mem _ hm)) r
    rw [List.cons_append]
    rw [show pySplitlines (c :: (x' ++ '\n' :: r)) =
        (match pySplitlines (x' ++ '\n' :: r) with
          | [] => [[c]]
          | l :: ls => (c :: l) :: ls) from by
      conv_lhs => rw [pySplitlines.eq_def]
      split
      · next heq => exact List.noConfusion heq
      · next heq =>
        injection heq with h1 h2
        exact absurd h1 hc_r
      · next heq =>
        injection heq with h1 h2
        exact absurd h1 hc_n
      · next heq =>
        injection heq with h1 h2
        exact absurd h1 hc_r
      · next c' t' heq =>
        injection heq with h1 h2
        rw [h1, h2]]
    rw [ih']

theorem pySplitlines_single (x : Str) (hx : x ≠ []) (hn : '\n' ∉ x)
    (hr : '\r' ∉ x) : pySplitlines x = [x] := by
  induction x with
  | nil => exact absurd rfl hx
  | cons c x' ih =>
    have hc_n : c ≠ '\n' := fun hc => hn (by rw [hc]; exact List.mem_cons_self _ _)
    have hc_r : c ≠ '\r' := fun hc => hr (by rw [hc]; exact List.mem_cons_self _ _)
    rw [show pySplitlines (c :: x') =
        (match pySplitlines x' with
          | [] => [[c]]
          | l :: ls => (c :: l) :: ls) from by
      conv_lhs => rw [pySplitlines.eq_def]
      split
      · next heq => exact List.noConfusion heq
      · next heq =>
        injection heq with h1 h2
        exact absurd h1 hc_r
      · next heq =>
        injection heq with h1 h2
        exact absurd h1 hc_n
      · next heq =>
        injection heq with h1 h2
        exact absurd h1 hc_r
      · next c' t' heq =>
        injection heq with h1 h2
        rw [h1, h2]]
    by_cases hx' : x' = []
    · subst hx'
      rw [pySplitlines]
    · rw [ih hx' (fun hm => hn (List.mem_cons_of_mem _ hm))
        (fun hm => hr (List.mem_cons_of_mem _ hm))]

theorem cleanLines_nil : cleanLines [] = [] := rfl

theorem cleanLines_join_parts :
    ∀ (parts : List Str), (∀ x ∈ parts, '\n' ∉ x ∧ '\r' ∉ x) →
      cleanLines (joinWith ['\n'] parts) =
        (parts.map pyStrip).filter (fun ln => ln ≠ []) := by
  intro parts
  induction parts with
  | nil =>
    intro _
    rw [joinWith_nil]
    rfl
  | cons x t ih =>
    intro h
    obtain ⟨hxn, hxr⟩ := h x (List.mem_cons_self _ _)
    have ht : ∀ y ∈ t, '\n' ∉ y ∧ '\r' ∉ y :=
      fun y hy => h y (List.mem_cons_of_mem _ hy)
    cases t with
    | nil =>
      rw [joinWith_single]
      by_cases hx : x = []
      · subst hx
        rfl
      · rw [cleanLines, pySplitlines_single x hx hxn hxr]
    | cons y t' =>
      rw [joinWith_cons₂]
      have hjoin : x ++ ['\n'] ++ joinWith ['\n'] (y :: t') =
          x ++ '\n' :: joinWith ['\n'] (y :: t') := by
        simp
      rw [hjoin, cleanLines, pySplitlines_append_nl x hxn hxr]
      rw [List.map_cons, List.filter_cons]
      rw [cleanLines] at ih
      rw [ih ht]
      conv_rhs => rw [List.map_cons, List.filter_cons]

theorem roleParts_eq (r : RoleBlock) : roleParts r = blockLines r ++ [[]] := rfl

theorem bulletLine_nl_free (b : Str) (hn : '\n' ∉ b) (hr : '\r' ∉ b) :
    '\n' ∉ ('•' :: ' ' :: b) ∧ '\r' ∉ ('•' :: ' ' :: b) := by
  constructor
  · simp only [List.mem_cons]
    push_neg
    exact ⟨by decide, by decide, hn⟩
  · simp only [List.mem_cons]
    push_neg
    exact ⟨by decide, by decide, hr⟩

theorem dropWhile_of_strip_fixed (b : Str) (hs : pyStrip b = b) :
    List.dropWhile Char.isWhitespace b = b := by
  have h := dropWhile_pyStrip b
  rw [hs] at h
  exact h

theorem bulletMatch_bullet (b : Str) (h : lineSafe b) :
    bulletMatch ('•' :: ' ' :: b) = some b := by
  obtain ⟨hs, hne, -, -⟩ := h
  have hdrop : ('•' :: ' ' :: b).dropWhile Char.isWhitespace = '•' :: ' ' :: b := by
    rw [List.dropWhile_cons, if_neg (by decide)]
  have hdb : (' ' :: b).dropWhile Char.isWhitespace = b := by
    rw [List.dropWhile_cons, if_pos (by decide)]
    exact dropWhile_of_strip_fixed b hs
  rw [bulletMatch, hdrop]
  split
  · next heq => exact List.noConfusion heq
  · next c rest heq =>
    injection heq with hc hrest
    subst hc
    subst hrest
    rw [if_pos (Or.inl rfl), if_neg (by simp), hdb]
    cases b with
    | nil => exact absurd rfl hne
    | cons c0 b0 => rfl

theorem nextRoleBreak_eq_false (ln : Str) (rest : List Str)
    (hhead : ∀ l1, rest.head? = some l1 → dateLineSearch l1 = false) :
    nextRoleBreak ln rest = false := by
  match rest with
  | [] => rfl
  | [l1] => rfl
  | l1 :: l2 :: t =>
    rw [nextRoleBreak, hhead l1 rfl, Bool.false_and]

theorem bulletsMapFilter (bl : List Str) (hb : ∀ b ∈ bl, lineSafe b) :
    ((bl.map (fun b => '•' :: ' ' :: b)).map pyStrip).filter
        (fun ln => ln ≠ []) = bl.map (fun b => '•' :: ' ' :: b) := by
  induction bl with
  | nil => rfl
  | cons b t ih =>
    rw [List.map_cons, List.map_cons, List.filter_cons]
    rw [lineSafe_pyStrip_bullet b (hb b (List.mem_cons_self _ _))]
    rw [if_pos (by simp)]
    rw [ih (fun x hx => hb x (List.mem_cons_of_mem _ hx))]

theorem blockLines_clean (r : RoleBlock)
    (h1 : lineSafe r.company_line) (h2 : lineSafe r.dates_line)
    (h3 : lineSafe r.title_line) (hb : ∀ b ∈ r.bullets, lineSafe b) :
    ((blockLines r).map pyStrip).filter (fun ln => ln ≠ []) = blockLines r := by
  obtain ⟨h1s, h1n, -, -⟩ := h1
  obtain ⟨h2s, h2n, -, -⟩ := h2
  obtain ⟨h3s, h3n, -, -⟩ := h3
  rw [blockLines, List.map_cons, List.map_cons, List.map_cons,
    h1s, h2s, h3s, List.filter_cons, List.filter_cons, List.filter_cons]
  rw [if_pos (by simpa using h1n), if_pos (by simpa using h2n),
    if_pos (by simpa using h3n)]
  rw [bulletsMapFilter r.bullets hb]

theorem bulletScan_roundtrip :
    ∀ (bl : List Str) (acc tail : List Str),
      (∀ b ∈ bl, lineSafe b ∧ dateLineSearch ('•' :: ' ' :: b) = false) →
      (tail = [] ∨ ∃ c d t3 rest, tail = c :: d :: t3 :: rest ∧ pyStrip c = c ∧
        dateLineSearch c = false ∧ dateLineSearch d = true ∧
        (c.contains '|' || pyIsupper c) = true) →
      bulletScan acc false (bl.map (fun b => '•' :: ' ' :: b) ++ tail) =
        (acc ++ bl, tail) := by
  intro bl
  induction bl with
  | nil =>
    intro acc tail _ htail
    rw [List.map_nil, List.nil_append]
    rcases htail with rfl | ⟨c, d, t3, rest, rfl, hstrip, hcd, hdd, hcu⟩
    · rw [bulletScan, List.append_nil]
    · have hbreak : nextRoleBreak c (d :: t3 :: rest) = true := by
        simp [nextRoleBreak, hdd, hcu]
        rcases (Bool.or_eq_true _ _).mp hcu with h | h
        · exact Or.inl (by simpa using h)
        · exact Or.inr h
      simp only [bulletScan]
      rw [hstrip, if_pos hbreak, List.append_nil]
  | cons b bl ih =>
    intro acc tail hb htail
    obtain ⟨hbsafe, hbdate⟩ := hb b (List.mem_cons_self _ _)
    have hbtail : ∀ x ∈ bl, lineSafe x ∧ dateLineSearch ('•' :: ' ' :: x) = false :=
      fun x hx => hb x (List.mem_cons_of_mem _ hx)
    rw [List.map_cons, List.cons_append]
    have hnb : nextRoleBreak ('•' :: ' ' :: b)
        (bl.map (fun x => '•' :: ' ' :: x) ++ tail) = false := by
      refine nextRoleBreak_eq_false _ _ ?_
      intro l1 hl1
      cases bl with
      | cons b2 bl2 =>
        rw [List.map_cons, List.cons_append, List.head?_cons] at hl1
        injection hl1 with h
        rw [← h]
        exact (hbtail b2 (List.mem_cons_self _ _)).2
      | nil =>
        rw [List.map_nil, List.nil_append] at hl1
        rcases htail with rfl | ⟨c, d, t3, rest, rfl, hstrip, hcd, hdd, hcu⟩
        · simp at hl1
        · rw [List.head?_cons] at hl1
          injection hl1 with h
          rw [← h]
          exact hcd
    simp only [bulletScan]
    rw [lineSafe_pyStrip_bullet b hbsafe]
    rw [if_neg (by simp [hnb]), if_neg (by simp), bulletMatch_bullet b hbsafe]
    show bulletScan (acc ++ [pyStrip b]) false
        (bl.map (fun x => '•' :: ' ' :: x) ++ tail) = (acc ++ b :: bl, tail)
    rw [hbsafe.1, ih (acc ++ [b]) tail hbtail htail]
    rw [List.append_assoc, List.singleton_append]

theorem parseWorkAux_roundtrip (sf : Str) :
    ∀ (roles : List RoleBlock) (fuel : Nat),
      roundTripReady roles →
      (List.flatten (roles.map blockLines)).length ≤ fuel →
      parseWorkAux sf fuel (List.flatten (roles.map blockLines)) =
        roles.map (reSource sf) := by
  intro roles
  induction roles with
  | nil =>
    intro fuel _ _
    cases fuel with
    | zero => rfl
    | succ n => rfl
  | cons r t ih =>
    intro fuel h hfuel
    obtain ⟨h1, h2, h3, hb, hbne, hd, hcd, hbd, hcu⟩ := h r (List.mem_cons_self _ _)
    have ht : roundTripReady t := fun x hx => h x (List.mem_cons_of_mem _ hx)
    rw [List.map_cons, List.flatten_cons, blockLines, List.cons_append,
      List.cons_append, List.cons_append] at hfuel ⊢
    have hbl : ∀ b ∈ r.bullets,
        lineSafe b ∧ dateLineSearch ('•' :: ' ' :: b) = false :=
      fun b hbm => ⟨hb b hbm, hbd b hbm⟩
    have htail : List.flatten (t.map blockLines) = [] ∨
        ∃ c d t3 rest, List.flatten (t.map blockLines) = c :: d :: t3 :: rest ∧
          pyStrip c = c ∧ dateLineSearch c = false ∧ dateLineSearch d = true ∧
          (c.contains '|' || pyIsupper c) = true := by
      cases t with
      | nil => exact Or.inl rfl
      | cons r2 t2 =>
        obtain ⟨h1c, -, -, -, -, hd2, hcd2, -, hcu2⟩ :=
          ht r2 (List.mem_cons_self _ _)
        refine Or.inr ⟨r2.company_line, r2.dates_line, r2.title_line,
          r2.bullets.map (fun b => '•' :: ' ' :: b) ++
            List.flatten (t2.map blockLines), ?_, h1c.1, hcd2, hd2, hcu2⟩
        rw [List.map_cons, List.flatten_cons, blockLines, List.cons_append,
          List.cons_append, List.cons_append]
    have hscan : bulletScan [] false
        (r.bullets.map (fun b => '•' :: ' ' :: b) ++
          List.flatten (t.map blockLines)) =
        (r.bullets, List.flatten (t.map blockLines)) := by
      have hx := bulletScan_roundtrip r.bullets [] _ hbl htail
      rw [List.nil_append] at hx
      exact hx
    have hflen : (List.flatten (t.map blockLines)).length ≤ fuel - 1 := by
      simp only [List.length_cons, List.length_append] at hfuel
      omega
    cases fuel with
    | zero => simp at hfuel
    | succ fuel2 =>
      rw [parseWorkAux, if_pos hd]
      simp only [hscan]
      rw [if_pos (by exact hbne)]
      have hre : (⟨r.company_line, r.dates_line, r.title_line, r.bullets,
          [sf]⟩ : RoleBlock) = reSource sf r := by
        cases r
        rfl
      rw [hre, ih fuel2 ht (by omega), List.map_cons, List.singleton_append]

theorem roleParts_nl_free (r : RoleBlock)
    (h1 : lineSafe r.company_line) (h2 : lineSafe r.dates_line)
    (h3 : lineSafe r.title_line) (hb : ∀ b ∈ r.bullets, lineSafe b) :
    ∀ x ∈ roleParts r, '\n' ∉ x ∧ '\r' ∉ x := by
  intro x hx
  rw [roleParts_eq] at hx
  rcases List.mem_append.mp hx with hx | hx
  · rw [blockLines] at hx
    rcases List.mem_cons.mp hx with rfl | hx
    · exact ⟨h1.2.2.1, h1.2.2.2⟩
    rcases List.mem_cons.mp hx with rfl | hx
    · exact ⟨h2.2.2.1, h2.2.2.2⟩
    rcases List.mem_cons.mp hx with rfl | hx
    · exact ⟨h3.2.2.1, h3.2.2.2⟩
    obtain ⟨b, hbm, rfl⟩ := List.mem_map.mp hx
    obtain ⟨-, -, hn, hr⟩ := hb b hbm
    exact bulletLine_nl_free b hn hr
  · rw [List.mem_singleton.mp hx]
    exact ⟨List.not_mem_nil _, List.not_mem_nil _⟩

theorem flatten_strip_filter :
    ∀ (roles : List RoleBlock), roundTripReady roles →
      ((List.flatten (roles.map roleParts)).map pyStrip).filter
          (fun ln => ln ≠ []) = List.flatten (roles.map blockLines) := by
  intro roles
  induction roles with
  | nil =>
    intro _
    rfl
  | cons r t ih =>
    intro h
    obtain ⟨h1, h2, h3, hb, -, -, -, -, -⟩ := h r (List.mem_cons_self _ _)
    have ht : roundTripReady t := fun x hx => h x (List.mem_cons_of_mem _ hx)
    rw [List.map_cons, List.flatten_cons, roleParts_eq, List.append_assoc,
      List.map_append, List.filter_append, blockLines_clean r h1 h2 h3 hb,
      List.map_cons, List.flatten_cons]
    rw [List.map_append, List.filter_append, ih ht]
    rw [show ((([[]] : List Str).map pyStrip).filter (fun ln => ln ≠ [])) =
      [] from rfl, List.nil_append]

theorem joinWith_head_cons (sep : Str) (a : Char) (y : Str) (qs : List Str) :
    ∃ t, joinWith sep ((a :: y) :: qs) = a :: t := by
  cases qs with
  | nil =>
    refine ⟨y, ?_⟩
    rw [joinWith_single]
  | cons q qt =>
    refine ⟨y ++ sep ++ joinWith sep (q :: qt), ?_⟩
    rw [joinWith_cons₂]
    simp

theorem render_clean (roles : List RoleBlock) (h : roundTripReady roles) :
    cleanLines (build_experience_evidence roles) =
      List.flatten (roles.map blockLines) := by
  rcases List.eq_nil_or_concat roles with rfl | ⟨rs, z, hroles⟩
  · rfl
  · rw [List.concat_eq_append] at hroles
    subst hroles
    obtain ⟨hz1, hz2, hz3, hzb, hzne, -, -, -, -⟩ :=
      h z (List.mem_append_right rs (List.mem_singleton.mpr rfl))
    have hrs : roundTripReady rs := fun x hx => h x (List.mem_append_left _ hx)
    have hP : List.flatten ((rs ++ [z]).map roleParts) =
        (List.flatten (rs.map roleParts) ++ blockLines z) ++ [[]] := by
      rw [List.map_append, List.flatten_append]
      simp [roleParts_eq, List.append_assoc]
    have hQne : List.flatten (rs.map roleParts) ++ blockLines z ≠ [] := by
      simp [blockLines]
    have hjoin : joinWith ['\n'] (List.flatten ((rs ++ [z]).map roleParts)) =
        joinWith ['\n'] (List.flatten (rs.map roleParts) ++ blockLines z) ++
          ['\n'] := by
      rw [hP, joinWith_concat ['\n'] [] _ hQne]
      simp
    have hbuild : build_experience_evidence (rs ++ [z]) =
        pyStrip (joinWith ['\n']
          (List.flatten (rs.map roleParts) ++ blockLines z)) := by
      rw [build_experience_evidence, hjoin, pyStrip_concat_ws _ '\n' (by decide)]
    have hhead : ∃ a y qs,
        List.flatten (rs.map roleParts) ++ blockLines z = (a :: y) :: qs ∧
          a.isWhitespace = false := by
      cases rs with
      | nil =>
        obtain ⟨a, y, w, b, hay, -, ha, -⟩ := lineSafe_ends z.company_line hz1
        refine ⟨a, y, z.dates_line :: z.title_line ::
          z.bullets.map (fun b => '•' :: ' ' :: b), ?_, ha⟩
        rw [List.map_nil, List.flatten_nil, List.nil_append, blockLines, hay]
      | cons r0 rs2 =>
        obtain ⟨hr01, -, -, -, -, -, -, -, -⟩ :=
          h r0 (List.mem_append_left _ (List.mem_cons_self _ _))
        obtain ⟨a, y, w, b, hay, -, ha, -⟩ := lineSafe_ends r0.company_line hr01
        refine ⟨a, y,
          (((r0.dates_line :: r0.title_line ::
              r0.bullets.map (fun b => '•' :: ' ' :: b)) ++ [[]]) ++
            List.flatten (rs2.map roleParts)) ++ blockLines z, ?_, ha⟩
        rw [List.map_cons, List.flatten_cons, roleParts_eq, blockLines, hay,
          List.cons_append, List.cons_append, List.cons_append]
    obtain ⟨a, y, qs, hQeq, ha⟩ := hhead
    obtain ⟨T, hJhead⟩ := joinWith_head_cons ['\n'] a y qs
    rcases List.eq_nil_or_concat z.bullets with hbul | ⟨bs, bb, hbs⟩
    · exact absurd hbul hzne
    rw [List.concat_eq_append] at hbs
    have hbbmem : bb ∈ z.bullets := by
      rw [hbs]
      exact List.mem_append_right _ (List.mem_singleton.mpr rfl)
    obtain ⟨ab, yb, wb, b2, hayb, hwb, hab, hb2⟩ :=
      lineSafe_ends bb (hzb bb hbbmem)
    have hblz : blockLines z =
        (z.company_line :: z.dates_line :: z.title_line ::
          bs.map (fun b => '•' :: ' ' :: b)) ++ ['•' :: ' ' :: bb] := by
      rw [blockLines, hbs, List.map_append]
      rfl
    have hWne : List.flatten (rs.map roleParts) ++
        (z.company_line :: z.dates_line :: z.title_line ::
          bs.map (fun b => '•' :: ' ' :: b)) ≠ [] := by
      simp
    have hQW : List.flatten (rs.map roleParts) ++ blockLines z =
        (List.flatten (rs.map roleParts) ++
          (z.company_line :: z.dates_line :: z.title_line ::
            bs.map (fun b => '•' :: ' ' :: b))) ++ ['•' :: ' ' :: bb] := by
      rw [hblz, List.append_assoc]
    have hJlast : joinWith ['\n']
        (List.flatten (rs.map roleParts) ++ blockLines z) =
        (joinWith ['\n'] (List.flatten (rs.map roleParts) ++
          (z.company_line :: z.dates_line :: z.title_line ::
            bs.map (fun b => '•' :: ' ' :: b))) ++
          ['\n'] ++ ('•' :: ' ' :: wb)) ++ [b2] := by
      rw [hQW, joinWith_concat ['\n'] _ _ hWne, hwb]
      simp [List.append_assoc]
    have hstripJ : pyStrip (joinWith ['\n']
        (List.flatten (rs.map roleParts) ++ blockLines z)) =
        joinWith ['\n'] (List.flatten (rs.map roleParts) ++ blockLines z) := by
      rw [hQeq, hJhead]
      refine pyStrip_eq_self a T
        (joinWith ['\n'] (List.flatten (rs.map roleParts) ++
          (z.company_line :: z.dates_line :: z.title_line ::
            bs.map (fun b => '•' :: ' ' :: b))) ++ ['\n'] ++
          ('•' :: ' ' :: wb)) b2 ?_ ha hb2
      rw [← hJhead, ← hQeq, hJlast]
    have hQfree : ∀ x ∈ List.flatten (rs.map roleParts) ++ blockLines z,
        '\n' ∉ x ∧ '\r' ∉ x := by
      intro x hx
      rcases List.mem_append.mp hx with hx | hx
      · obtain ⟨s, hs, hxs⟩ := List.mem_flatten.mp hx
        obtain ⟨r2, hr2, rfl⟩ := List.mem_map.mp hs
        obtain ⟨g1, g2, g3, gb, -, -, -, -, -⟩ := hrs r2 hr2
        exact roleParts_nl_free r2 g1 g2 g3 gb x hxs
      · refine roleParts_nl_free z hz1 hz2 hz3 hzb x ?_
        rw [roleParts_eq]
        exact List.mem_append_left _ hx
    rw [hbuild, hstripJ,
      cleanLines_join_parts (List.flatten (rs.map roleParts) ++ blockLines z)
        hQfree,
      List.map_append, List.filter_append, flatten_strip_filter rs hrs,
      blockLines_clean z hz1 hz2 hz3 hzb, List.map_append,
      List.flatten_append]
    simp

/-- C7 (amended): the round-trip holds exactly on extractor-canonical lists.
When every block has stripped, nonempty, newline-free header fields and
bullets, at least one bullet, a dates line matching the date pattern, a
company line that does not match it and passes the next-role test (contains
a pipe or is upper-case), and no bullet line matching the date pattern,
rendering with `build_experience_evidence` and re-parsing with
`parse_work_experience` reproduces exactly the same blocks, with the
evidence file as the sole provenance.  Without these conditions the claimed
round-trip fails (see the counterexample). -/
theorem roundtrip_canonical (roles : List RoleBlock) (sf : Str)
    (h : roundTripReady roles) :
    parse_work_experience (build_experience_evidence roles) sf =
      roles.map (reSource sf) := by
  rw [parse_work_experience, render_clean roles h]
  exact parseWorkAux_roundtrip sf roles _ h le_rfl

/-- C7 counterexample: a two-block list that `merge_roles` leaves unchanged,
whose second company line ("Beta llc") neither contains a pipe nor is
upper-case.  Rendering it with `build_experience_evidence` and re-parsing
with `parse_work_experience` yields a single block, so the round-trip does
not reproduce the two blocks' header fields and bullets. -/
theorem roundtrip_noncanonical_loses_blocks :
    merge_roles [rGoodA, rBadB] = [rGoodA, rBadB] ∧
    (parse_work_experience (build_experience_evidence [rGoodA, rBadB])
        ['f']).length = 1 ∧
    ([rGoodA, rBadB] : List RoleBlock).length = 2 :=
  ⟨by decide, by decide, by decide⟩

/-- Witness for `roundtrip_canonical` on a concrete canonical two-block
list. -/
theorem roundtrip_canonical_witness :
    roundTripReady [rGoodA, rGoodB] ∧
    parse_work_experience (build_experience_evidence [rGoodA, rGoodB]) ['f'] =
      [reSource ['f'] rGoodA, reSource ['f'] rGoodB] :=
  ⟨by decide, roundtrip_canonical [rGoodA, rGoodB] ['f'] (by decide)⟩

end JSB
